import Mathlib

/-!
Shallow embedding of the zvfs single-file virtual filesystem (src/zvfs.py)
and verification of its specification claims.

The container is modelled as a byte list (`List Nat`, each element a byte
value).  Python `struct` packing with the formats `"<8s B B H H H H H I I
I I H 26s"` (header) and `"<32s I I B B H Q 12s"` (entry) is modelled by a
generic little-endian codec over format-item lists.  Python integers are
modelled as `Int`; `struct.pack` range failures, `assert` failures,
`sys.exit` and the `TypeError` raised by `None * int` are explicit error
results carrying the file state at the moment the exception escapes
(writes performed before the exception persist, as they do on disk).
-/

set_option maxHeartbeats 1000000
set_option maxRecDepth 4000

namespace ZVFS

/-- Little-endian value of a byte list. -/
def leVal : List Nat → Nat
  | [] => 0
  | b :: bs => b + 256 * leVal bs

/-- Little-endian encoding of `v` into `k` bytes (as `struct` does for the
unsigned formats `B`, `H`, `I`, `Q`). -/
def uintLE : Nat → Nat → List Nat
  | 0, _ => []
  | k + 1, v => v % 256 :: uintLE k (v / 256)

/-! ### Generic `struct` codec

One format item is either a fixed-width byte-string field (`s`) or an
unsigned little-endian integer field (`B`/`H`/`I`/`Q`). -/

/-- One item of a `struct` format string. -/
inductive FmtItem where
  | str : Nat → FmtItem
  | uint : Nat → FmtItem
deriving DecidableEq

/-- Byte width of a format item. -/
def FmtItem.size : FmtItem → Nat
  | .str n => n
  | .uint n => n

/-- One packed/unpacked value: a byte string or a Python integer. -/
inductive FVal where
  | bytes : List Nat → FVal
  | num : Int → FVal
deriving DecidableEq

/-- Pack one value.  `s` fields are truncated or zero-padded to the field
width (as `struct.pack` does); integer fields must be in the unsigned
range of the field or `struct.error` is raised. -/
def packItem : FmtItem → FVal → Option (List Nat)
  | .str n, .bytes b => some (b.take n ++ List.replicate (n - b.length) 0)
  | .uint n, .num v => if 0 ≤ v ∧ v < (256 : Int) ^ n then some (uintLE n v.toNat) else none
  | _, _ => none

/-- Unpack one field's bytes. -/
def unpackItem : FmtItem → List Nat → FVal
  | .str _, b => .bytes b
  | .uint _, b => .num (leVal b : Int)

/-- `struct.pack`: concatenation of the packed fields; fails if any field
is out of range or the value count does not match the format. -/
def structPack : List FmtItem → List FVal → Option (List Nat)
  | [], [] => some []
  | it :: its, v :: vs =>
    match packItem it v, structPack its vs with
    | some b, some rest => some (b ++ rest)
    | _, _ => none
  | _, _ => none

/-- `struct.unpack`: splits the input into the fields' widths; fails
unless the input length is exactly the format's size. -/
def structUnpack : List FmtItem → List Nat → Option (List FVal)
  | [], [] => some []
  | [], _ :: _ => none
  | it :: its, b =>
    if it.size ≤ b.length then
      match structUnpack its (b.drop it.size) with
      | some vs => some (unpackItem it (b.take it.size) :: vs)
      | none => none
    else none

/-- Total byte size of a format. -/
def fmtSize (fmt : List FmtItem) : Nat := (fmt.map FmtItem.size).sum

/-- Shape of the values produced by `structUnpack`. -/
def ShapeOk : FmtItem → FVal → Prop
  | .str n, .bytes bb => bb.length = n
  | .uint _, .num x => 0 ≤ x
  | _, _ => False

/-- String fields of exactly the field width. -/
def StrOk : FmtItem → FVal → Prop
  | .str n, .bytes bb => bb.length = n
  | .uint _, .num _ => True
  | _, _ => False

/-! ### Header and FileEntry records

Fields and formats follow `HEADER_FORMAT = "<8s B B H H H H H I I I I H 26s"`
and `FILE_ENTRY_FORMAT = "<32s I I B B H Q 12s"` in the source. -/

/-- `HEADER_FORMAT = "<8s B B H H H H H I I I I H 26s"`. -/
def headerFmt : List FmtItem :=
  [.str 8, .uint 1, .uint 1, .uint 2, .uint 2, .uint 2, .uint 2, .uint 2,
   .uint 4, .uint 4, .uint 4, .uint 4, .uint 2, .str 26]

/-- `FILE_ENTRY_FORMAT = "<32s I I B B H Q 12s"`. -/
def entryFmt : List FmtItem :=
  [.str 32, .uint 4, .uint 4, .uint 1, .uint 1, .uint 2, .uint 8, .str 12]

/-- The container header (class `Header`). -/
structure Header where
  magic : List Nat
  version : Int
  flags : Int
  reserved0 : Int
  file_count : Int
  file_capacity : Int
  file_entry_size : Int
  reserved1 : Int
  file_table_offset : Int
  data_start_offset : Int
  next_free_offset : Int
  free_entry_offset : Int
  deleted_files : Int
  reserved2 : List Nat
deriving DecidableEq

/-- One 64-byte file entry (class `FileEntry`). -/
structure FileEntry where
  name : List Nat
  start : Int
  length : Int
  type : Int
  flag : Int
  reserved0 : Int
  created : Int
  reserved1 : List Nat
deriving DecidableEq

instance : Inhabited FileEntry :=
  ⟨⟨List.replicate 32 0, 0, 0, 0, 0, 0, 0, List.replicate 12 0⟩⟩

def Header.toVals (h : Header) : List FVal :=
  [.bytes h.magic, .num h.version, .num h.flags, .num h.reserved0, .num h.file_count,
   .num h.file_capacity, .num h.file_entry_size, .num h.reserved1, .num h.file_table_offset,
   .num h.data_start_offset, .num h.next_free_offset, .num h.free_entry_offset,
   .num h.deleted_files, .bytes h.reserved2]

def Header.ofVals : List FVal → Option Header
  | [.bytes m, .num v, .num fl, .num r0, .num fc, .num cap, .num es, .num r1,
     .num fto, .num dso, .num nfo, .num feo, .num df, .bytes r2] =>
    some ⟨m, v, fl, r0, fc, cap, es, r1, fto, dso, nfo, feo, df, r2⟩
  | _ => none

/-- `Header.pack`. -/
def Header.pack (h : Header) : Option (List Nat) := structPack headerFmt h.toVals

/-- `Header.unpack` (also `read_header`'s parse step). -/
def Header.unpack (b : List Nat) : Option Header := (structUnpack headerFmt b).bind Header.ofVals

def FileEntry.toVals (e : FileEntry) : List FVal :=
  [.bytes e.name, .num e.start, .num e.length, .num e.type, .num e.flag,
   .num e.reserved0, .num e.created, .bytes e.reserved1]

def FileEntry.ofVals : List FVal → Option FileEntry
  | [.bytes nm, .num st, .num ln, .num ty, .num fl, .num r0, .num cr, .bytes r1] =>
    some ⟨nm, st, ln, ty, fl, r0, cr, r1⟩
  | _ => none

/-- `FileEntry.pack`. -/
def FileEntry.pack (e : FileEntry) : Option (List Nat) := structPack entryFmt e.toVals

/-- `FileEntry.unpack`. -/
def FileEntry.unpack (b : List Nat) : Option FileEntry :=
  (structUnpack entryFmt b).bind FileEntry.ofVals

/-! ### The container file

A host file open in binary mode is a byte-addressed store: its current
size and the byte at each offset.  `readAt f p n` models
`f.seek(p); f.read(n)`, returning at most `n` bytes and stopping at the
end of the file; `writeAt f p d` models `f.seek(p); f.write(d)`: a seek
past the end followed by a non-empty write zero-fills the gap, while
writing zero bytes leaves the file untouched (POSIX semantics, as Python
exposes them). -/

/-- A host file: its size and the byte stored at each offset below the
size (offsets at or above the size hold zero). -/
structure VFile where
  size : Nat
  data : Nat → Nat

/-- A freshly created, empty file (`open(path, "wb")`). -/
def emptyFile : VFile := ⟨0, fun _ => 0⟩

/-- `f.seek(p); f.read(n)`. -/
def readAt (f : VFile) (p n : Nat) : List Nat :=
  (List.range (min n (f.size - p))).map (fun i => f.data (p + i))

/-- `f.seek(p); f.write(d)`. -/
def writeAt (f : VFile) (p : Nat) (d : List Nat) : VFile :=
  if d = [] then f
  else ⟨max (p + d.length) f.size,
    fun i =>
      if p ≤ i ∧ i < p + d.length then d.getD (i - p) 0
      else if i < f.size then f.data i else 0⟩

/-! ### Strings and UTF-8

A Python string is a list of Unicode code points.  `utf8Char`/`utf8`
model `str.encode("utf-8")` for valid scalar values (Python raises
`UnicodeEncodeError` on surrogates; theorems about encoding therefore
carry a `ValidName` hypothesis).  `utf8Decode` models
`bytes.decode("utf-8")`, rejecting exactly the byte sequences Python
rejects. -/

/-- UTF-8 encoding of one code point. -/
def utf8Char (c : Nat) : List Nat :=
  if c < 0x80 then [c]
  else if c < 0x800 then [0xC0 + c / 64, 0x80 + c % 64]
  else if c < 0x10000 then [0xE0 + c / 4096, 0x80 + c / 64 % 64, 0x80 + c % 64]
  else [0xF0 + c / 262144, 0x80 + c / 4096 % 64, 0x80 + c / 64 % 64, 0x80 + c % 64]

/-- UTF-8 encoding of a string (`str.encode("utf-8")`). -/
def utf8 : List Nat → List Nat
  | [] => []
  | c :: cs => utf8Char c ++ utf8 cs

/-- A valid Unicode scalar value (encodable by Python). -/
def ValidCp (c : Nat) : Prop := c < 0xD800 ∨ (0xE000 ≤ c ∧ c < 0x110000)

instance (c : Nat) : Decidable (ValidCp c) := by unfold ValidCp; infer_instance

/-- A name every character of which Python can UTF-8-encode. -/
def ValidName (s : List Nat) : Prop := ∀ c ∈ s, ValidCp c

instance (s : List Nat) : Decidable (ValidName s) := by
  unfold ValidName; exact List.decidableBAll _ s

/-- UTF-8 decoding (`bytes.decode("utf-8")`); `none` models
`UnicodeDecodeError`. -/
def utf8Decode : List Nat → Option (List Nat)
  | [] => some []
  | b :: rest =>
    if b < 0x80 then (utf8Decode rest).map (b :: ·)
    else if 0xC2 ≤ b ∧ b ≤ 0xDF then
      match rest with
      | c :: r2 =>
        if 0x80 ≤ c ∧ c ≤ 0xBF then
          (utf8Decode r2).map (((b - 0xC0) * 64 + (c - 0x80)) :: ·)
        else none
      | [] => none
    else if 0xE0 ≤ b ∧ b ≤ 0xEF then
      match rest with
      | c :: d :: r2 =>
        if (0x80 ≤ c ∧ c ≤ 0xBF) ∧ (0x80 ≤ d ∧ d ≤ 0xBF) ∧
            (b ≠ 0xE0 ∨ 0xA0 ≤ c) ∧ (b ≠ 0xED ∨ c ≤ 0x9F) then
          (utf8Decode r2).map (((b - 0xE0) * 4096 + (c - 0x80) * 64 + (d - 0x80)) :: ·)
        else none
      | _ => none
    else if 0xF0 ≤ b ∧ b ≤ 0xF4 then
      match rest with
      | c :: d :: e :: r2 =>
        if (0x80 ≤ c ∧ c ≤ 0xBF) ∧ (0x80 ≤ d ∧ d ≤ 0xBF) ∧ (0x80 ≤ e ∧ e ≤ 0xBF) ∧
            (b ≠ 0xF0 ∨ 0x90 ≤ c) ∧ (b ≠ 0xF4 ∨ c ≤ 0x8F) then
          (utf8Decode r2).map
            (((b - 0xF0) * 262144 + (c - 0x80) * 4096 + (d - 0x80) * 64 + (e - 0x80)) :: ·)
        else none
      | _ => none
    else none

/-! ### The host filesystem and operation results -/

/-- The host filesystem: existing files, as name/content pairs. -/
def HostFS := List (List Nat × List Nat)

/-- `Path(name).exists()` / `open(name, "rb").read()`. -/
def hostLookup : HostFS → List Nat → Option (List Nat)
  | [], _ => none
  | (k, v) :: rest, n => if k = n then some v else hostLookup rest n

/-- The Python exceptions and exits the operations can raise. -/
inductive PyErr where
  /-- `AssertionError`: the host file passed to add/remove does not exist. -/
  | fileMissing
  /-- `ValueError` from `encode_filename`: more than 31 characters. -/
  | nameTooLongChars
  /-- `AssertionError` in `addfs`: UTF-8 encoding longer than 31 bytes. -/
  | nameTooLongBytes
  /-- `sys.exit` in `addfs`: duplicate name. -/
  | duplicate
  /-- `AssertionError` from `compare_filenames`: no entry with that name. -/
  | notFound
  /-- `TypeError` in `addfs`: `free_position` is `None` (no empty slot). -/
  | typeErrorNone
  /-- `struct.error`: pack/unpack failure. -/
  | structError
  /-- `UnicodeDecodeError` in `catfs`. -/
  | decodeError
deriving DecidableEq

/-- Result of a mutating operation: the container file afterwards, or the
exception raised together with the container file at that moment (writes
performed before the exception persist). -/
inductive OpResult where
  | ok : VFile → OpResult
  | err : PyErr → VFile → OpResult

/-- The exception of a result, if any. -/
def errOf : OpResult → Option PyErr
  | .ok _ => none
  | .err e _ => some e

/-- The container file of a result (on an error, the file as the
exception escapes). -/
def fileOf : OpResult → VFile
  | .ok f => f
  | .err _ f => f

/-! ### The operations (class `FileSystem`) -/

/-- `FileSystem.encode_filename`: at most 31 characters, UTF-8-encode,
NUL-pad to 32 bytes (`b"\x00" * (32 - len)` is empty when the encoding is
longer than 32 bytes, exactly like Python's negative repeat). -/
def encode_filename (file : List Nat) : Option (List Nat) :=
  if 31 < file.length then none
  else some (utf8 file ++ List.replicate (32 - (utf8 file).length) 0)

/-- `FileEntry.is_empty`: the name is 32 zero bytes. -/
def FileEntry.is_empty (e : FileEntry) : Bool := e.name = List.replicate 32 0

/-- Index of the first element satisfying `p`
(`next((idx for idx, entry in enumerate(...) if ...), None)`). -/
def firstIdx {α : Type} (p : α → Bool) : List α → Option Nat
  | [] => none
  | x :: rest => if p x then some 0 else (firstIdx p rest).map (· + 1)

/-- `FileSystem.compare_filenames`: index of the first entry with the
given 32-byte name; `none` models the `AssertionError`. -/
def compare_filenames (file_entries : List FileEntry) (filename : List Nat) : Option Nat :=
  firstIdx (fun e => e.name = filename) file_entries

/-- `Header.read_header`: read 64 bytes at offset 0 and unpack. -/
def read_header (fs : VFile) : Option Header := Header.unpack (readAt fs 0 64)

/-- Read `k` consecutive 64-byte entry frames starting at `pos`. -/
def readSlots (fs : VFile) (pos : Nat) : Nat → Option (List FileEntry)
  | 0 => some []
  | k + 1 =>
    match FileEntry.unpack (readAt fs pos 64), readSlots fs (pos + 64) k with
    | some e, some es => some (e :: es)
    | _, _ => none

/-- `FileEntry.read_entries`: all 32 entries from offset 64. -/
def read_entries (fs : VFile) : Option (List FileEntry) := readSlots fs 64 32

/-- The default header (class `Header` constructor defaults). -/
def defaultHeader : Header :=
  ⟨[0x5A, 0x56, 0x46, 0x53, 0x44, 0x53, 0x4B, 0x31], 1, 0, 0, 0, 32, 64, 0, 64, 2112, 2112, 64,
    0, List.replicate 26 0⟩

/-- The default (empty) file entry. -/
def emptyEntry : FileEntry := ⟨List.replicate 32 0, 0, 0, 0, 0, 0, 0, List.replicate 12 0⟩

/-- Write the packed empty entry (`FileEntry().pack()`) `k` times at
consecutive 64-byte positions (the fill loops of `mkfs` and `dfrgfs`). -/
def writeEmpties (f : VFile) (pos : Nat) : Nat → VFile
  | 0 => f
  | k + 1 => writeEmpties (writeAt f pos ((emptyEntry.pack).getD [])) (pos + 64) k

/-- `FileSystem.mkfs`: a fresh container, the packed default header
followed by 32 packed empty entries. -/
def mkfs : VFile := writeEmpties (writeAt emptyFile 0 ((defaultHeader.pack).getD [])) 64 32

/-- The allocation half of `addfs` (from `entry_offset = FILE_TABLE_OFFSET
+ free_position * ENTRY_SIZE` on): `fs2` is the container after the
payload and padding writes, `new_entry` the constructed entry and
`header2` the updated header.  `free_position = none` is the `TypeError`
raised by `None * 64`. -/
def addfs_alloc (fs2 : VFile) (free_position : Option Nat) (new_entry : FileEntry)
    (header2 : Header) : OpResult :=
  match free_position with
  | none => .err .typeErrorNone fs2
  | some pos =>
    match new_entry.pack with
    | none => .err .structError fs2
    | some eb =>
      let fs3 := writeAt fs2 (64 + pos * 64) eb
      match header2.pack with
      | none => .err .structError fs3
      | some hb => .ok (writeAt fs3 0 hb)

/-- `FileSystem.addfs`.  `now` is `int(time.time())`; `host` supplies the
bytes of the host file being added. -/
def addfs (now : Int) (fs : VFile) (host : HostFS) (new_file : List Nat) : OpResult :=
  match hostLookup host new_file with
  | none => .err .fileMissing fs
  | some file_content =>
    match read_header fs with
    | none => .err .structError fs
    | some header_fs =>
      match read_entries fs with
      | none => .err .structError fs
      | some entries =>
        let free_position := firstIdx (fun e => e.is_empty) entries
        match encode_filename new_file with
        | none => .err .nameTooLongChars fs
        | some filename =>
          if entries.any (fun e => e.name = filename) then .err .duplicate fs
          else
            let file_size := file_content.length
            if 31 < (utf8 new_file).length then .err .nameTooLongBytes fs
            else
              let name_encoded := utf8 new_file ++ List.replicate (32 - (utf8 new_file).length) 0
              let current_data_offset := header_fs.next_free_offset.toNat
              let padded := (file_size + 63) / 64 * 64
              let padding_size := if file_size < padded then padded - file_size else 0
              let fs1 := writeAt fs current_data_offset file_content
              let fs2 := writeAt fs1 (current_data_offset + file_size)
                (List.replicate padding_size 0)
              addfs_alloc fs2 free_position
                ⟨name_encoded, (current_data_offset : Int), (file_size : Int), 0, 0, 0, now,
                  List.replicate 12 0⟩
                { header_fs with
                  file_count := header_fs.file_count + 1,
                  next_free_offset := (current_data_offset : Int) + (padded : Int) }

/-- `FileSystem.getfs`, restricted to the bytes it hands to the host for
writing to disk (the container itself is never modified). -/
def getfs (fs : VFile) (extraction_file : List Nat) : Except PyErr (List Nat) :=
  match encode_filename extraction_file with
  | none => .error .nameTooLongChars
  | some filename =>
    match read_entries fs with
    | none => .error .structError
    | some entries =>
      match compare_filenames entries filename with
      | none => .error .notFound
      | some file_index =>
        let entry := entries.getD file_index default
        .ok (readAt fs entry.start.toNat entry.length.toNat)

/-- The code points of the literal `"Content of file "` printed by
`catfs`. -/
def catfsPrefixCodes : List Nat :=
  [67, 111, 110, 116, 101, 110, 116, 32, 111, 102, 32, 102, 105, 108, 101, 32]

/-- `FileSystem.catfs`: the code points printed to standard output
(including the trailing newline `print` appends). -/
def catfs (fs : VFile) (file : List Nat) : Except PyErr (List Nat) :=
  match encode_filename file with
  | none => .error .nameTooLongChars
  | some filename =>
    match read_entries fs with
    | none => .error .structError
    | some fs_entries =>
      match compare_filenames fs_entries filename with
      | none => .error .notFound
      | some file_index =>
        let entry := fs_entries.getD file_index default
        let data := readAt fs entry.start.toNat entry.length.toNat
        match utf8Decode data with
        | none => .error .decodeError
        | some decoded =>
          .ok (catfsPrefixCodes ++ file ++ [0x3A, 0x20] ++ decoded ++ [10])

/-- The write half of `rmfs`: `entry2` is the located entry with its
flag set to 1 and `fs_header2` the header with `deleted_files`
incremented and `file_count` decremented. -/
def rmfs_write (fs : VFile) (file_index : Nat) (entry2 : FileEntry)
    (fs_header2 : Header) : OpResult :=
  match entry2.pack with
  | none => .err .structError fs
  | some eb =>
    let fs1 := writeAt fs (64 + file_index * 64) eb
    match fs_header2.pack with
    | none => .err .structError fs1
    | some hb => .ok (writeAt fs1 0 hb)

/-- `FileSystem.rmfs`. -/
def rmfs (fs : VFile) (host : HostFS) (remove_file : List Nat) : OpResult :=
  match hostLookup host remove_file with
  | none => .err .fileMissing fs
  | some _ =>
    match encode_filename remove_file with
    | none => .err .nameTooLongChars fs
    | some filename =>
      match read_header fs with
      | none => .err .structError fs
      | some fs_header =>
        match read_entries fs with
        | none => .err .structError fs
        | some fs_entries =>
          match compare_filenames fs_entries filename with
          | none => .err .notFound fs
          | some file_index =>
            rmfs_write fs file_index
              { fs_entries.getD file_index default with flag := 1 }
              { fs_header with
                deleted_files := fs_header.deleted_files + 1,
                file_count := fs_header.file_count - 1 }

/-- The data-compaction loop of `dfrgfs`: for each kept entry, read its
payload at its old `start`, write it (and padding up to a 64-byte
multiple) at the cursor, update the entry's `start`, advance the cursor.
Returns the file, the final cursor and the updated entries. -/
def dfrgCopy (f : VFile) (cur : Nat) : List FileEntry → VFile × Nat × List FileEntry
  | [] => (f, cur, [])
  | e :: rest =>
    let data := readAt f e.start.toNat e.length.toNat
    let f1 := writeAt f cur data
    let padded := (e.length.toNat + 63) / 64 * 64
    let f2 := if e.length.toNat < padded then
        writeAt f1 (cur + data.length) (List.replicate (padded - e.length.toNat) 0)
      else f1
    let r := dfrgCopy f2 (cur + padded) rest
    (r.1, r.2.1, { e with start := (cur : Int) } :: r.2.2)

/-- The entry-table rewrite loop of `dfrgfs`: pack each kept entry and
write it at the running position; on a pack failure the file written so
far is returned as the error state. -/
def writePackLoop (f : VFile) (pos : Nat) :
    List FileEntry → Except VFile (VFile × Nat)
  | [] => .ok (f, pos)
  | e :: rest =>
    match e.pack with
    | none => .error f
    | some b => writePackLoop (writeAt f pos b) (pos + b.length) rest

/-- The table-and-header half of `dfrgfs`, after the data-compaction
loop: rewrite the entry table (kept entries, then empty frames) and the
header. -/
def dfrg_finish (fs1 : VFile) (cursor : Nat) (kept2 : List FileEntry)
    (keepLen : Nat) (fs_header : Header) : OpResult :=
  match writePackLoop fs1 64 kept2 with
  | .error fsE => .err .structError fsE
  | .ok (fs2, pos2) =>
    let fs3 := writeEmpties fs2 pos2 (32 - keepLen)
    match ({ fs_header with
        file_count := (keepLen : Int),
        deleted_files := 0,
        next_free_offset := (cursor : Int),
        free_entry_offset := ((64 + keepLen * 64 : Nat) : Int) } : Header).pack with
    | none => .err .structError fs3
    | some hb => .ok (writeAt fs3 0 hb)

/-- `FileSystem.dfrgfs`. -/
def dfrgfs (fs : VFile) : OpResult :=
  match read_header fs with
  | none => .err .structError fs
  | some fs_header =>
    match read_entries fs with
    | none => .err .structError fs
    | some fs_entries =>
      let files_to_keep := fs_entries.filter (fun e => !e.is_empty && e.flag == 0)
      let r := dfrgCopy fs 2112 files_to_keep
      dfrg_finish r.1 r.2.1 r.2.2 files_to_keep.length fs_header


/-! ### Counting entries, reachable containers, demonstration containers -/

deriving instance DecidableEq for Except

/-- Number of live entries (name non-zero, flag 0). -/
def liveCount (es : List FileEntry) : Nat :=
  (es.filter (fun e => !e.is_empty && e.flag == 0)).length

/-- Number of soft-deleted entries (name non-zero, flag 1). -/
def flaggedCount (es : List FileEntry) : Nat :=
  (es.filter (fun e => !e.is_empty && e.flag == 1)).length

/-- The entry `rmfs` would mark deleted: the first one matching the
encoded name. -/
def rmTarget (fs : VFile) (n : List Nat) : Option FileEntry :=
  match encode_filename n, read_entries fs with
  | some filename, some es => (compare_filenames es filename).map (fun i => es.getD i default)
  | _, _ => none

/-- The remove targets an entry that is still live (occupied name, flag
still 0). -/
def RemovesLive (fs : VFile) (n : List Nat) : Prop :=
  ∀ e, rmTarget fs n = some e → e.is_empty = false ∧ e.flag = 0

/-- Containers reachable from `mkfs` by successful operations; a remove
step is admitted only when it targets a live (not yet deleted) entry.
Extract, cat, list and stat do not write to the container, so they do not
appear as steps. -/
inductive Reach : VFile → Prop where
  | init : Reach mkfs
  | add {fs fs' : VFile} {host : HostFS} {n : List Nat} {now : Int} :
      Reach fs → addfs now fs host n = .ok fs' → Reach fs'
  | remove {fs fs' : VFile} {host : HostFS} {n : List Nat} :
      Reach fs → RemovesLive fs n → rmfs fs host n = .ok fs' → Reach fs'
  | defrag {fs fs' : VFile} :
      Reach fs → dfrgfs fs = .ok fs' → Reach fs'

/-- The counter invariant, strengthened with the data region starting at
or after byte 2112 (`next_free_offset` stays past the entry table). -/
def StrongInv (fs : VFile) : Prop :=
  ∃ hdr entries, read_header fs = some hdr ∧ read_entries fs = some entries ∧
    hdr.file_count = (liveCount entries : Int) ∧
    hdr.deleted_files = (flaggedCount entries : Int) ∧
    liveCount entries + flaggedCount entries ≤ 32 ∧
    2112 ≤ hdr.next_free_offset.toNat

/-- One step of the data-compaction loop of `dfrgfs`: the container after
copying a single entry payload (and its padding) to the cursor. -/
def dfrgPost (f : VFile) (cur : Nat) (e : FileEntry) : VFile :=
  let data := readAt f e.start.toNat e.length.toNat
  let f1 := writeAt f cur data
  let padded := (e.length.toNat + 63) / 64 * 64
  if e.length.toNat < padded then
    writeAt f1 (cur + data.length) (List.replicate (padded - e.length.toNat) 0)
  else f1

/-- A chained (defragment-safe) layout for a list of entries inside a
container of `sz` bytes: each entry starts at or after the low bound,
its payload lies inside the container, and the next entry starts at or
after the 64-byte-aligned end of this one. -/
def Chained (sz : Nat) : Nat → List FileEntry → Prop
  | _, [] => True
  | lo, e :: r =>
      lo ≤ e.start.toNat ∧ e.start.toNat + e.length.toNat ≤ sz ∧
      Chained sz (e.start.toNat + (e.length.toNat + 63) / 64 * 64) r

def chainedDec (sz : Nat) : (lo : Nat) → (l : List FileEntry) → Decidable (Chained sz lo l)
  | _, [] => .isTrue trivial
  | lo, e :: r =>
    letI := chainedDec sz (e.start.toNat + (e.length.toNat + 63) / 64 * 64) r
    inferInstanceAs (Decidable (lo ≤ e.start.toNat ∧ e.start.toNat + e.length.toNat ≤ sz ∧
      Chained sz (e.start.toNat + (e.length.toNat + 63) / 64 * 64) r))

instance (sz lo : Nat) (l : List FileEntry) : Decidable (Chained sz lo l) :=
  chainedDec sz lo l

/-- A demonstration container: one deleted file `a` (payload byte `5` at
offset 2112) and one live file `b` (payload byte `9` at offset 2176). -/
def demoHeader : Header :=
  { defaultHeader with file_count := 1, deleted_files := 1, next_free_offset := 2240 }

def demoEntryA : FileEntry :=
  ⟨97 :: List.replicate 31 0, 2112, 1, 0, 1, 0, 0, List.replicate 12 0⟩

def demoEntryB : FileEntry :=
  ⟨98 :: List.replicate 31 0, 2176, 1, 0, 0, 0, 0, List.replicate 12 0⟩

def demoFs : VFile :=
  writeAt (writeAt (writeAt (writeAt mkfs 0 ((demoHeader.pack).getD []))
    64 ((demoEntryA.pack).getD [])) 128 ((demoEntryB.pack).getD []))
    2112 (5 :: (List.replicate 63 0 ++ 9 :: List.replicate 63 0))

/-- A container whose 32 entry slots are all occupied (distinct one-byte
names, no payloads). -/
def fullEntry (i : Nat) : FileEntry :=
  ⟨(65 + i) :: List.replicate 31 0, 2112, 0, 0, 0, 0, 0, List.replicate 12 0⟩

def fullSlots (f : VFile) (i : Nat) : Nat → VFile
  | 0 => f
  | k + 1 => fullSlots (writeAt f (64 + 64 * i) (((fullEntry i).pack).getD [])) (i + 1) k

def fullContainer : VFile :=
  fullSlots (writeAt mkfs 0 (({ defaultHeader with file_count := 32 : Header }.pack).getD [])) 0 32

/-- A 64-byte frame whose magic and version bytes are wrong. -/
def badFrame : List Nat := List.replicate 64 7

def badHeader : Header := (Header.unpack badFrame).getD defaultHeader

/-- Host filesystem for the double-remove scenario: two empty files. -/
def c4host : HostFS := [([97], []), ([98], [])]

def c4s1 : VFile := fileOf (addfs 0 mkfs c4host [97])
def c4s2 : VFile := fileOf (addfs 0 c4s1 c4host [98])
def c4s3 : VFile := fileOf (rmfs c4s2 c4host [97])
def c4s4 : VFile := fileOf (rmfs c4s3 c4host [97])



/-- A container holding one zero-length file named `x`. -/
def c1fs : VFile := fileOf (addfs 0 mkfs [([120], [])] [120])

/-- Host filesystem holding an (empty) file `a`. -/
def c3host : HostFS := [([97], [])]

/-- The container after removing the already-deleted `a` from `demoFs`. -/
def c3after : VFile := fileOf (rmfs demoFs c3host [97])



/-- A 16-character name whose UTF-8 encoding is 32 bytes (each character
U+00FC encodes as two bytes). -/
def c9name16 : List Nat := List.replicate 16 252

/-- A 31-character ASCII name: its UTF-8 encoding is exactly 31 bytes. -/
def c9name31 : List Nat := List.replicate 31 97


/-- The container after defragmenting `demoFs`. -/
def c8after : VFile := fileOf (dfrgfs demoFs)

/-- Host filesystem for the add/extract round trip: a two-byte file `a`. -/
def c7host : HostFS := [([97], [104, 105])]

/-- The container after adding that file to a fresh one. -/
def c7fs : VFile := fileOf (addfs 0 mkfs c7host [97])


theorem uintLE_length (k v : Nat) : (uintLE k v).length = k := by
  induction k generalizing v with
  | zero => rfl
  | succ k ih => simp [uintLE, ih]

theorem leVal_uintLE (k v : Nat) (h : v < 256 ^ k) : leVal (uintLE k v) = v := by
  induction k generalizing v with
  | zero =>
    simp only [uintLE, leVal]
    simp at h
    omega
  | succ k ih =>
    have hdiv : v / 256 < 256 ^ k := by
      rw [Nat.div_lt_iff_lt_mul (by norm_num : 0 < 256)]
      calc v < 256 ^ (k + 1) := h
        _ = 256 ^ k * 256 := by ring
    simp only [uintLE, leVal, ih (v / 256) hdiv]
    omega

theorem uintLE_leVal (k : Nat) (bs : List Nat) (hk : bs.length = k)
    (hb : ∀ b ∈ bs, b < 256) : uintLE k (leVal bs) = bs := by
  induction bs generalizing k with
  | nil => subst hk; rfl
  | cons b rest ih =>
    subst hk
    have hb0 : b < 256 := hb b (by simp)
    simp only [List.length_cons, uintLE, leVal]
    have h1 : (b + 256 * leVal rest) % 256 = b := by omega
    have h2 : (b + 256 * leVal rest) / 256 = leVal rest := by omega
    rw [h1, h2, ih rest.length rfl (fun x hx => hb x (by simp [hx]))]

theorem leVal_lt (bs : List Nat) (hb : ∀ b ∈ bs, b < 256) :
    leVal bs < 256 ^ bs.length := by
  induction bs with
  | nil => simp [leVal]
  | cons b rest ih =>
    have hb0 : b < 256 := hb b (by simp)
    have hr : leVal rest < 256 ^ rest.length := ih (fun x hx => hb x (by simp [hx]))
    simp only [leVal, List.length_cons, pow_succ]
    calc b + 256 * leVal rest < 256 + 256 * leVal rest := by omega
      _ = 256 * (leVal rest + 1) := by ring
      _ ≤ 256 * 256 ^ rest.length := by
          exact Nat.mul_le_mul_left 256 (by omega)
      _ = 256 ^ rest.length * 256 := by ring

theorem uintLE_lt (k v : Nat) : ∀ b ∈ uintLE k v, b < 256 := by
  induction k generalizing v with
  | zero => simp [uintLE]
  | succ k ih =>
    intro b hb
    simp only [uintLE, List.mem_cons] at hb
    rcases hb with h | h
    · omega
    · exact ih (v / 256) b h

theorem packItem_length {it : FmtItem} {v : FVal} {b : List Nat}
    (h : packItem it v = some b) : b.length = it.size := by
  cases it with
  | str n =>
    cases v with
    | bytes bb =>
      simp only [packItem, Option.some.injEq] at h
      subst h
      simp [FmtItem.size, List.length_take]
      omega
    | num _ => simp [packItem] at h
  | uint n =>
    cases v with
    | bytes _ => simp [packItem] at h
    | num x =>
      simp only [packItem] at h
      split at h
      · cases h; simp [FmtItem.size, uintLE_length]
      · cases h

theorem structPack_length {fmt : List FmtItem} {vs : List FVal} {b : List Nat}
    (h : structPack fmt vs = some b) : b.length = fmtSize fmt := by
  induction fmt generalizing vs b with
  | nil =>
    cases vs with
    | nil => cases h; rfl
    | cons _ _ => simp [structPack] at h
  | cons it its ih =>
    cases vs with
    | nil => simp [structPack] at h
    | cons v vrest =>
      simp only [structPack] at h
      cases hp : packItem it v with
      | none => rw [hp] at h; simp at h
      | some bi =>
        cases hr : structPack its vrest with
        | none => rw [hp, hr] at h; simp at h
        | some brest =>
          rw [hp, hr] at h
          cases h
          rw [List.length_append, packItem_length hp, ih hr]
          simp [fmtSize]

theorem structUnpack_total {fmt : List FmtItem} {b : List Nat}
    (h : b.length = fmtSize fmt) : ∃ vs, structUnpack fmt b = some vs := by
  induction fmt generalizing b with
  | nil =>
    cases b with
    | nil => exact ⟨[], rfl⟩
    | cons _ _ => simp [fmtSize] at h
  | cons it its ih =>
    have hsz : it.size ≤ b.length := by
      simp [fmtSize] at h
      omega
    have hdrop : (b.drop it.size).length = fmtSize its := by
      simp [fmtSize] at h ⊢
      omega
    obtain ⟨vs, hvs⟩ := ih hdrop
    refine ⟨unpackItem it (b.take it.size) :: vs, ?_⟩
    simp only [structUnpack, if_pos hsz, hvs]

theorem structUnpack_shape {fmt : List FmtItem} {b : List Nat} {vs : List FVal}
    (h : structUnpack fmt b = some vs) : List.Forall₂ ShapeOk fmt vs := by
  induction fmt generalizing b vs with
  | nil =>
    cases b with
    | nil => cases h; exact List.Forall₂.nil
    | cons _ _ => simp [structUnpack] at h
  | cons it its ih =>
    simp only [structUnpack] at h
    split at h
    case isTrue hsz =>
      cases hr : structUnpack its (b.drop it.size) with
      | none => rw [hr] at h; simp at h
      | some vrest =>
        rw [hr] at h
        cases h
        refine List.Forall₂.cons ?_ (ih hr)
        cases it with
        | str n =>
          simp only [unpackItem, ShapeOk, List.length_take, FmtItem.size]
          simp only [FmtItem.size] at hsz
          omega
        | uint n =>
          simp only [unpackItem, ShapeOk]
          exact Int.natCast_nonneg _
    case isFalse => cases h

/-- Codec round trip, direction pack-of-unpack: re-packing the values read
from a frame reproduces the frame exactly. -/
theorem structUnpack_pack {fmt : List FmtItem} {b : List Nat} {vs : List FVal}
    (h : structUnpack fmt b = some vs) (hb : ∀ x ∈ b, x < 256) :
    structPack fmt vs = some b := by
  induction fmt generalizing b vs with
  | nil =>
    cases b with
    | nil => cases h; rfl
    | cons _ _ => simp [structUnpack] at h
  | cons it its ih =>
    simp only [structUnpack] at h
    split at h
    case isTrue hsz =>
      cases hr : structUnpack its (b.drop it.size) with
      | none => rw [hr] at h; simp at h
      | some vrest =>
        rw [hr] at h
        cases h
        have hdb : ∀ x ∈ b.drop it.size, x < 256 := fun x hx => hb x (List.mem_of_mem_drop hx)
        have htb : ∀ x ∈ b.take it.size, x < 256 := fun x hx => hb x (List.mem_of_mem_take hx)
        have htlen : (b.take it.size).length = it.size := by
          simp [List.length_take]
          omega
        have hpi : packItem it (unpackItem it (b.take it.size)) = some (b.take it.size) := by
          cases it with
          | str n =>
            simp only [FmtItem.size] at htlen
            simp only [unpackItem, packItem, FmtItem.size, Option.some.injEq]
            rw [List.take_of_length_le (le_of_eq htlen), htlen]
            simp
          | uint n =>
            simp only [unpackItem, packItem]
            have hlt : leVal (b.take (FmtItem.uint n).size) < 256 ^ n := by
              have := leVal_lt (b.take (FmtItem.uint n).size) htb
              rwa [htlen] at this
            rw [if_pos]
            · simp only [Int.toNat_natCast, Option.some.injEq]
              exact uintLE_leVal n _ htlen htb
            · constructor
              · exact Int.natCast_nonneg _
              · exact_mod_cast hlt
        simp only [structPack, hpi, ih hr hdb]
        simp [List.take_append_drop]
    case isFalse => cases h

/-- Codec round trip, direction unpack-of-pack: unpacking a packed frame
recovers the values, provided byte-string fields have exactly the field
width (shorter or longer strings are padded/truncated by `pack`). -/
theorem structPack_unpack {fmt : List FmtItem} {vs : List FVal} {b : List Nat}
    (h : structPack fmt vs = some b) (hs : List.Forall₂ StrOk fmt vs) :
    structUnpack fmt b = some vs := by
  induction fmt generalizing vs b with
  | nil =>
    cases vs with
    | nil => cases h; rfl
    | cons _ _ => simp [structPack] at h
  | cons it its ih =>
    cases vs with
    | nil => simp [structPack] at h
    | cons v vrest =>
      simp only [structPack] at h
      cases hp : packItem it v with
      | none => rw [hp] at h; simp at h
      | some bi =>
        cases hr : structPack its vrest with
        | none => rw [hp, hr] at h; simp at h
        | some brest =>
          rw [hp, hr] at h
          cases h
          cases hs with
          | cons hs1 hsrest =>
            have hbl : bi.length = it.size := packItem_length hp
            have hszle : it.size ≤ (bi ++ brest).length := by
              simp [List.length_append]
              omega
            have htake : (bi ++ brest).take it.size = bi := by
              rw [← hbl]
              exact List.take_left bi brest
            have hdrop : (bi ++ brest).drop it.size = brest := by
              rw [← hbl]
              exact List.drop_left bi brest
            have hui : unpackItem it bi = v := by
              cases it with
              | str n =>
                cases v with
                | bytes bb =>
                  simp only [packItem, Option.some.injEq] at hp
                  simp only [StrOk] at hs1
                  simp only [unpackItem, FVal.bytes.injEq]
                  rw [← hp]
                  simp [hs1]
                | num _ => simp [packItem] at hp
              | uint n =>
                cases v with
                | bytes _ => simp [packItem] at hp
                | num x =>
                  simp only [packItem] at hp
                  split at hp
                  case isTrue hrange =>
                    cases hp
                    simp only [unpackItem, FVal.num.injEq]
                    have hxn : (x.toNat : Int) = x := Int.toNat_of_nonneg hrange.1
                    have hlt : x.toNat < 256 ^ n := by
                      have hc : (x.toNat : Int) < ((256 ^ n : Nat) : Int) := by
                        rw [hxn]
                        exact_mod_cast hrange.2
                      exact_mod_cast hc
                    rw [leVal_uintLE n x.toNat hlt, hxn]
                  case isFalse => simp at hp
            simp only [structUnpack, if_pos hszle, hdrop, ih hr hsrest]
            simp only [htake, hui]

theorem headerFmt_size : fmtSize headerFmt = 64 := rfl

theorem entryFmt_size : fmtSize entryFmt = 64 := rfl

theorem Header.ofVals_toVals (h : Header) : Header.ofVals h.toVals = some h := rfl

theorem FileEntry.entry_ofVals_toVals (e : FileEntry) : FileEntry.ofVals e.toVals = some e := rfl

theorem Header.toVals_ofVals {vs : List FVal} {h : Header}
    (hv : Header.ofVals vs = some h) : h.toVals = vs := by
  unfold Header.ofVals at hv
  split at hv
  · cases hv; rfl
  · cases hv

theorem FileEntry.entry_toVals_ofVals {vs : List FVal} {e : FileEntry}
    (hv : FileEntry.ofVals vs = some e) : e.toVals = vs := by
  unfold FileEntry.ofVals at hv
  split at hv
  · cases hv; rfl
  · cases hv

theorem shape_bytes {n : Nat} {v : FVal} (h : ShapeOk (.str n) v) :
    ∃ bb, v = .bytes bb ∧ bb.length = n := by
  cases v with
  | bytes bb => exact ⟨bb, rfl, h⟩
  | num _ => exact absurd h (by simp [ShapeOk])

theorem shape_num {n : Nat} {v : FVal} (h : ShapeOk (.uint n) v) :
    ∃ x, v = .num x ∧ 0 ≤ x := by
  cases v with
  | bytes _ => exact absurd h (by simp [ShapeOk])
  | num x => exact ⟨x, rfl, h⟩

/-- The shape of the value list unpacked with `headerFmt` always matches
`Header.ofVals`'s pattern. -/
theorem Header.ofVals_of_shape {vs : List FVal}
    (hs : List.Forall₂ ShapeOk headerFmt vs) : ∃ h, Header.ofVals vs = some h := by
  obtain _ | ⟨h1, hs⟩ := hs
  obtain _ | ⟨h2, hs⟩ := hs
  obtain _ | ⟨h3, hs⟩ := hs
  obtain _ | ⟨h4, hs⟩ := hs
  obtain _ | ⟨h5, hs⟩ := hs
  obtain _ | ⟨h6, hs⟩ := hs
  obtain _ | ⟨h7, hs⟩ := hs
  obtain _ | ⟨h8, hs⟩ := hs
  obtain _ | ⟨h9, hs⟩ := hs
  obtain _ | ⟨h10, hs⟩ := hs
  obtain _ | ⟨h11, hs⟩ := hs
  obtain _ | ⟨h12, hs⟩ := hs
  obtain _ | ⟨h13, hs⟩ := hs
  obtain _ | ⟨h14, hs⟩ := hs
  cases hs
  obtain ⟨m, rfl, -⟩ := shape_bytes h1
  obtain ⟨x2, rfl, -⟩ := shape_num h2
  obtain ⟨x3, rfl, -⟩ := shape_num h3
  obtain ⟨x4, rfl, -⟩ := shape_num h4
  obtain ⟨x5, rfl, -⟩ := shape_num h5
  obtain ⟨x6, rfl, -⟩ := shape_num h6
  obtain ⟨x7, rfl, -⟩ := shape_num h7
  obtain ⟨x8, rfl, -⟩ := shape_num h8
  obtain ⟨x9, rfl, -⟩ := shape_num h9
  obtain ⟨x10, rfl, -⟩ := shape_num h10
  obtain ⟨x11, rfl, -⟩ := shape_num h11
  obtain ⟨x12, rfl, -⟩ := shape_num h12
  obtain ⟨x13, rfl, -⟩ := shape_num h13
  obtain ⟨r2, rfl, -⟩ := shape_bytes h14
  exact ⟨_, rfl⟩

theorem FileEntry.entry_ofVals_of_shape {vs : List FVal}
    (hs : List.Forall₂ ShapeOk entryFmt vs) : ∃ e, FileEntry.ofVals vs = some e := by
  obtain _ | ⟨h1, hs⟩ := hs
  obtain _ | ⟨h2, hs⟩ := hs
  obtain _ | ⟨h3, hs⟩ := hs
  obtain _ | ⟨h4, hs⟩ := hs
  obtain _ | ⟨h5, hs⟩ := hs
  obtain _ | ⟨h6, hs⟩ := hs
  obtain _ | ⟨h7, hs⟩ := hs
  obtain _ | ⟨h8, hs⟩ := hs
  cases hs
  obtain ⟨nm, rfl, -⟩ := shape_bytes h1
  obtain ⟨x2, rfl, -⟩ := shape_num h2
  obtain ⟨x3, rfl, -⟩ := shape_num h3
  obtain ⟨x4, rfl, -⟩ := shape_num h4
  obtain ⟨x5, rfl, -⟩ := shape_num h5
  obtain ⟨x6, rfl, -⟩ := shape_num h6
  obtain ⟨x7, rfl, -⟩ := shape_num h7
  obtain ⟨r1, rfl, -⟩ := shape_bytes h8
  exact ⟨_, rfl⟩

/-- Unpacking any 64-byte frame as a header succeeds: `Header.unpack` does
no validation of magic or version. -/
theorem Header.unpack_total {b : List Nat} (hb : b.length = 64) :
    ∃ h, Header.unpack b = some h := by
  obtain ⟨vs, hvs⟩ := @structUnpack_total headerFmt b (by rw [hb, headerFmt_size])
  obtain ⟨h, hh⟩ := Header.ofVals_of_shape (structUnpack_shape hvs)
  exact ⟨h, by simp [Header.unpack, hvs, hh]⟩

/-- Unpacking any 64-byte frame as an entry succeeds. -/
theorem FileEntry.entry_unpack_total {b : List Nat} (hb : b.length = 64) :
    ∃ e, FileEntry.unpack b = some e := by
  obtain ⟨vs, hvs⟩ := @structUnpack_total entryFmt b (by rw [hb, entryFmt_size])
  obtain ⟨e, he⟩ := FileEntry.entry_ofVals_of_shape (structUnpack_shape hvs)
  exact ⟨e, by simp [FileEntry.unpack, hvs, he]⟩

/-- Packing the header read from a 64-byte frame restores the frame. -/
theorem Header.pack_of_unpack {b : List Nat} {h : Header}
    (hu : Header.unpack b = some h) (hb : ∀ x ∈ b, x < 256) :
    Header.pack h = some b := by
  simp only [Header.unpack, Option.bind_eq_some] at hu
  obtain ⟨vs, hvs, hof⟩ := hu
  rw [Header.pack, Header.toVals_ofVals hof]
  exact structUnpack_pack hvs hb

theorem FileEntry.entry_pack_of_unpack {b : List Nat} {e : FileEntry}
    (hu : FileEntry.unpack b = some e) (hb : ∀ x ∈ b, x < 256) :
    FileEntry.pack e = some b := by
  simp only [FileEntry.unpack, Option.bind_eq_some] at hu
  obtain ⟨vs, hvs, hof⟩ := hu
  rw [FileEntry.pack, FileEntry.entry_toVals_ofVals hof]
  exact structUnpack_pack hvs hb

/-- Unpacking a packed header restores the header, provided the byte-string
fields have their exact widths (8 for magic, 26 for reserved2). -/
theorem Header.unpack_of_pack {h : Header} {b : List Nat}
    (hp : Header.pack h = some b) (hm : h.magic.length = 8)
    (hr : h.reserved2.length = 26) : Header.unpack b = some h := by
  have hs : List.Forall₂ StrOk headerFmt h.toVals := by
    refine List.Forall₂.cons (by simpa [StrOk]) ?_
    refine List.Forall₂.cons (by simp [StrOk]) ?_
    refine List.Forall₂.cons (by simp [StrOk]) ?_
    refine List.Forall₂.cons (by simp [StrOk]) ?_
    refine List.Forall₂.cons (by simp [StrOk]) ?_
    refine List.Forall₂.cons (by simp [StrOk]) ?_
    refine List.Forall₂.cons (by simp [StrOk]) ?_
    refine List.Forall₂.cons (by simp [StrOk]) ?_
    refine List.Forall₂.cons (by simp [StrOk]) ?_
    refine List.Forall₂.cons (by simp [StrOk]) ?_
    refine List.Forall₂.cons (by simp [StrOk]) ?_
    refine List.Forall₂.cons (by simp [StrOk]) ?_
    refine List.Forall₂.cons (by simp [StrOk]) ?_
    refine List.Forall₂.cons (by simpa [StrOk]) List.Forall₂.nil
  rw [Header.unpack, structPack_unpack hp hs]
  simp [Header.ofVals_toVals]

/-- Unpacking a packed entry restores the entry, provided the byte-string
fields have their exact widths (32 for name, 12 for reserved1). -/
theorem FileEntry.entry_unpack_of_pack {e : FileEntry} {b : List Nat}
    (hp : FileEntry.pack e = some b) (hm : e.name.length = 32)
    (hr : e.reserved1.length = 12) : FileEntry.unpack b = some e := by
  have hs : List.Forall₂ StrOk entryFmt e.toVals := by
    refine List.Forall₂.cons (by simpa [StrOk]) ?_
    refine List.Forall₂.cons (by simp [StrOk]) ?_
    refine List.Forall₂.cons (by simp [StrOk]) ?_
    refine List.Forall₂.cons (by simp [StrOk]) ?_
    refine List.Forall₂.cons (by simp [StrOk]) ?_
    refine List.Forall₂.cons (by simp [StrOk]) ?_
    refine List.Forall₂.cons (by simp [StrOk]) ?_
    refine List.Forall₂.cons (by simpa [StrOk]) List.Forall₂.nil
  rw [FileEntry.unpack, structPack_unpack hp hs]
  simp [FileEntry.entry_ofVals_toVals]

theorem Header.pack_length {h : Header} {b : List Nat} (hp : Header.pack h = some b) :
    b.length = 64 := by
  have := structPack_length hp
  rwa [headerFmt_size] at this

theorem FileEntry.entry_pack_length {e : FileEntry} {b : List Nat} (hp : FileEntry.pack e = some b) :
    b.length = 64 := by
  have := structPack_length hp
  rwa [entryFmt_size] at this

theorem writeAt_nil (f : VFile) (p : Nat) : writeAt f p [] = f := rfl

theorem size_writeAt {d : List Nat} (hd : d ≠ []) (f : VFile) (p : Nat) :
    (writeAt f p d).size = max (p + d.length) f.size := by
  simp [writeAt, if_neg hd]

theorem size_writeAt_ge (f : VFile) (p : Nat) (d : List Nat) :
    f.size ≤ (writeAt f p d).size := by
  by_cases hd : d = []
  · simp [hd, writeAt_nil]
  · rw [size_writeAt hd]
    omega

theorem length_readAt (f : VFile) (p n : Nat) :
    (readAt f p n).length = min n (f.size - p) := by
  simp [readAt]

theorem length_readAt_of_le {f : VFile} {p n : Nat} (h : p + n ≤ f.size) :
    (readAt f p n).length = n := by
  rw [length_readAt]
  omega

theorem length_readAt_le (f : VFile) (p n : Nat) : (readAt f p n).length ≤ n := by
  rw [length_readAt]
  omega

/-- `(List.range n).map (fun i => d.getD i 0) = d` when `d` has length
`n`. -/
theorem map_getD_range {d : List Nat} {n : Nat} (h : d.length = n) :
    (List.range n).map (fun i => d.getD i 0) = d := by
  apply List.ext_getElem
  · simp [h]
  · intro i h1 h2
    simp only [List.getElem_map, List.getElem_range]
    rw [List.getD_eq_getElem d 0 h2]

/-- Reading back exactly the bytes just written. -/
theorem readAt_writeAt_self (f : VFile) (p : Nat) (d : List Nat) :
    readAt (writeAt f p d) p d.length = d := by
  by_cases hd : d = []
  · simp [hd, readAt]
  · have hsz : (writeAt f p d).size = max (p + d.length) f.size := size_writeAt hd f p
    have hmin : min d.length ((writeAt f p d).size - p) = d.length := by
      rw [hsz]
      omega
    simp only [readAt, hmin]
    have hdat : ∀ i < d.length, (writeAt f p d).data (p + i) = d.getD i 0 := by
      intro i hi
      simp only [writeAt, if_neg hd]
      have : p ≤ p + i ∧ p + i < p + d.length := by omega
      simp [this]
    calc (List.range d.length).map (fun i => (writeAt f p d).data (p + i))
        = (List.range d.length).map (fun i => d.getD i 0) := by
          apply List.map_congr_left
          intro i hi
          exact hdat i (List.mem_range.mp hi)
      _ = d := map_getD_range rfl

/-- A write at or above `q + n` does not change a read of `[q, q+n)` that
lies inside the file. -/
theorem readAt_writeAt_left {f : VFile} {p q n : Nat} (d : List Nat)
    (hle : q + n ≤ p) (hf : q + n ≤ f.size) :
    readAt (writeAt f p d) q n = readAt f q n := by
  by_cases hd : d = []
  · simp [hd, writeAt_nil]
  · have hsz : (writeAt f p d).size = max (p + d.length) f.size := size_writeAt hd f p
    have hmin : min n ((writeAt f p d).size - q) = n := by
      rw [hsz]
      omega
    have hmin2 : min n (f.size - q) = n := by omega
    simp only [readAt, hmin, hmin2]
    apply List.map_congr_left
    intro i hi
    have hi' : i < n := List.mem_range.mp hi
    simp only [writeAt, if_neg hd]
    have h1 : ¬(p ≤ q + i ∧ q + i < p + d.length) := by omega
    have h2 : q + i < f.size := by omega
    simp [h1, h2]

/-- A write strictly below `q` does not change a read of `[q, q+n)`. -/
theorem readAt_writeAt_right {f : VFile} {p q n : Nat} (d : List Nat)
    (hle : p + d.length ≤ q) :
    readAt (writeAt f p d) q n = readAt f q n := by
  by_cases hd : d = []
  · simp [hd, writeAt_nil]
  · have hsz : (writeAt f p d).size = max (p + d.length) f.size := size_writeAt hd f p
    by_cases hbig : f.size ≤ p + d.length
    · have hmin : min n ((writeAt f p d).size - q) = 0 := by
        rw [hsz]
        omega
      have hmin2 : min n (f.size - q) = 0 := by omega
      simp [readAt, hmin, hmin2]
    · have hmin : (writeAt f p d).size - q = f.size - q := by
        rw [hsz]
        omega
      simp only [readAt, hmin]
      apply List.map_congr_left
      intro i hi
      have hi' : i < min n (f.size - q) := List.mem_range.mp hi
      simp only [writeAt, if_neg hd]
      have h1 : ¬(p ≤ q + i ∧ q + i < p + d.length) := by omega
      have h2 : q + i < f.size := by omega
      simp [h1, h2]


theorem utf8Char_length_pos (c : Nat) : 1 ≤ (utf8Char c).length := by
  unfold utf8Char
  split <;> [simp; split] <;> [simp; split] <;> simp

theorem utf8_length_ge (s : List Nat) : s.length ≤ (utf8 s).length := by
  induction s with
  | nil => simp [utf8]
  | cons c cs ih =>
    simp only [utf8, List.length_append, List.length_cons]
    have := utf8Char_length_pos c
    omega


/-! ### Facts about unpacked records -/

theorem structUnpack_length {fmt : List FmtItem} {b : List Nat} {vs : List FVal}
    (h : structUnpack fmt b = some vs) : b.length = fmtSize fmt := by
  induction fmt generalizing b vs with
  | nil =>
    cases b with
    | nil => simp [fmtSize]
    | cons _ _ => simp [structUnpack] at h
  | cons it its ih =>
    simp only [structUnpack] at h
    split at h
    case isTrue hsz =>
      cases hr : structUnpack its (b.drop it.size) with
      | none => rw [hr] at h; simp at h
      | some vrest =>
        rw [hr] at h
        have := ih hr
        simp only [List.length_drop] at this
        simp [fmtSize] at this ⊢
        omega
    case isFalse => cases h

theorem Header.unpack_length {b : List Nat} {h : Header}
    (hu : Header.unpack b = some h) : b.length = 64 := by
  simp only [Header.unpack, Option.bind_eq_some] at hu
  obtain ⟨vs, hvs, -⟩ := hu
  rw [structUnpack_length hvs, headerFmt_size]

theorem FileEntry.entry_unpack_length {b : List Nat} {e : FileEntry}
    (hu : FileEntry.unpack b = some e) : b.length = 64 := by
  simp only [FileEntry.unpack, Option.bind_eq_some] at hu
  obtain ⟨vs, hvs, -⟩ := hu
  rw [structUnpack_length hvs, entryFmt_size]

/-- Field facts that hold for every header read from bytes. -/
theorem Header.unpack_shape {b : List Nat} {h : Header}
    (hu : Header.unpack b = some h) :
    h.magic.length = 8 ∧ h.reserved2.length = 26 ∧ 0 ≤ h.file_count ∧
      0 ≤ h.deleted_files ∧ 0 ≤ h.next_free_offset := by
  simp only [Header.unpack, Option.bind_eq_some] at hu
  obtain ⟨vs, hvs, hof⟩ := hu
  have hs := structUnpack_shape hvs
  rw [← Header.toVals_ofVals hof] at hs
  simp only [Header.toVals, headerFmt] at hs
  obtain _ | ⟨h1, hs⟩ := hs
  obtain _ | ⟨h2, hs⟩ := hs
  obtain _ | ⟨h3, hs⟩ := hs
  obtain _ | ⟨h4, hs⟩ := hs
  obtain _ | ⟨h5, hs⟩ := hs
  obtain _ | ⟨h6, hs⟩ := hs
  obtain _ | ⟨h7, hs⟩ := hs
  obtain _ | ⟨h8, hs⟩ := hs
  obtain _ | ⟨h9, hs⟩ := hs
  obtain _ | ⟨h10, hs⟩ := hs
  obtain _ | ⟨h11, hs⟩ := hs
  obtain _ | ⟨h12, hs⟩ := hs
  obtain _ | ⟨h13, hs⟩ := hs
  obtain _ | ⟨h14, hs⟩ := hs
  simp only [ShapeOk] at h1 h5 h11 h13 h14
  exact ⟨h1, h14, h5, h13, h11⟩

/-- Field facts that hold for every entry read from bytes. -/
theorem FileEntry.entry_unpack_shape {b : List Nat} {e : FileEntry}
    (hu : FileEntry.unpack b = some e) :
    e.name.length = 32 ∧ e.reserved1.length = 12 ∧ 0 ≤ e.start ∧
      0 ≤ e.length ∧ 0 ≤ e.flag := by
  simp only [FileEntry.unpack, Option.bind_eq_some] at hu
  obtain ⟨vs, hvs, hof⟩ := hu
  have hs := structUnpack_shape hvs
  rw [← FileEntry.entry_toVals_ofVals hof] at hs
  simp only [FileEntry.toVals, entryFmt] at hs
  obtain _ | ⟨h1, hs⟩ := hs
  obtain _ | ⟨h2, hs⟩ := hs
  obtain _ | ⟨h3, hs⟩ := hs
  obtain _ | ⟨h4, hs⟩ := hs
  obtain _ | ⟨h5, hs⟩ := hs
  obtain _ | ⟨h6, hs⟩ := hs
  obtain _ | ⟨h7, hs⟩ := hs
  obtain _ | ⟨h8, hs⟩ := hs
  simp only [ShapeOk] at h1 h2 h3 h5 h8
  exact ⟨h1, h8, h2, h3, h5⟩

/-! ### Facts about the slot reader -/

theorem readSlots_length {fs : VFile} {pos k : Nat} {es : List FileEntry}
    (h : readSlots fs pos k = some es) : es.length = k := by
  induction k generalizing pos es with
  | zero => cases h; rfl
  | succ k ih =>
    simp only [readSlots] at h
    cases he : FileEntry.unpack (readAt fs pos 64) with
    | none => rw [he] at h; simp at h
    | some e =>
      cases hr : readSlots fs (pos + 64) k with
      | none => rw [he, hr] at h; simp at h
      | some rest =>
        rw [he, hr] at h
        cases h
        simp [ih hr]

theorem readSlots_get {fs : VFile} {pos k : Nat} {es : List FileEntry}
    (h : readSlots fs pos k = some es) :
    ∀ i < k, FileEntry.unpack (readAt fs (pos + 64 * i) 64) = some (es.getD i default) := by
  induction k generalizing pos es with
  | zero => intro i hi; omega
  | succ k ih =>
    intro i hi
    simp only [readSlots] at h
    cases he : FileEntry.unpack (readAt fs pos 64) with
    | none => rw [he] at h; simp at h
    | some e =>
      cases hr : readSlots fs (pos + 64) k with
      | none => rw [he, hr] at h; simp at h
      | some rest =>
        rw [he, hr] at h
        cases h
        cases i with
        | zero => simpa using he
        | succ i =>
          have := ih hr i (by omega)
          have harith : pos + 64 + 64 * i = pos + 64 * (i + 1) := by ring
          rw [harith] at this
          simpa using this

theorem readSlots_congr {fs fs' : VFile} {pos k : Nat}
    (h : ∀ i < k, readAt fs' (pos + 64 * i) 64 = readAt fs (pos + 64 * i) 64) :
    readSlots fs' pos k = readSlots fs pos k := by
  induction k generalizing pos with
  | zero => rfl
  | succ k ih =>
    have h0 : readAt fs' pos 64 = readAt fs pos 64 := by
      have := h 0 (by omega)
      simpa using this
    have hrest : readSlots fs' (pos + 64) k = readSlots fs (pos + 64) k := by
      apply ih
      intro i hi
      have := h (i + 1) (by omega)
      have harith : pos + 64 * (i + 1) = pos + 64 + 64 * i := by ring
      rwa [harith] at this
    simp only [readSlots, h0, hrest]

/-- Reading slots after one slot's frame was replaced. -/
theorem readSlots_update {fs fs' : VFile} {pos k : Nat} {es : List FileEntry}
    {i : Nat} {x : FileEntry}
    (hs : readSlots fs pos k = some es) (hi : i < k)
    (hsame : ∀ j < k, j ≠ i → readAt fs' (pos + 64 * j) 64 = readAt fs (pos + 64 * j) 64)
    (hx : FileEntry.unpack (readAt fs' (pos + 64 * i) 64) = some x) :
    readSlots fs' pos k = some (es.set i x) := by
  induction k generalizing pos es i with
  | zero => omega
  | succ k ih =>
    simp only [readSlots] at hs
    cases he : FileEntry.unpack (readAt fs pos 64) with
    | none => rw [he] at hs; simp at hs
    | some e =>
      cases hr : readSlots fs (pos + 64) k with
      | none => rw [he, hr] at hs; simp at hs
      | some rest =>
        rw [he, hr] at hs
        cases hs
        cases i with
        | zero =>
          have hx0 : FileEntry.unpack (readAt fs' pos 64) = some x := by simpa using hx
          have hrest : readSlots fs' (pos + 64) k = some rest := by
            have hcongr : readSlots fs' (pos + 64) k = readSlots fs (pos + 64) k := by
              apply readSlots_congr
              intro j hj
              have := hsame (j + 1) (by omega) (by omega)
              have harith : pos + 64 * (j + 1) = pos + 64 + 64 * j := by ring
              rwa [harith] at this
            rw [hcongr]
            exact hr
          simp only [readSlots, hx0, hrest, List.set]
        | succ i =>
          have h0 : readAt fs' pos 64 = readAt fs pos 64 := by
            have := hsame 0 (by omega) (by omega)
            simpa using this
          have hx' : FileEntry.unpack (readAt fs' (pos + 64 + 64 * i) 64) = some x := by
            have harith : pos + 64 + 64 * i = pos + 64 * (i + 1) := by ring
            rwa [harith]
          have hrest : readSlots fs' (pos + 64) k = some (rest.set i x) := by
            apply ih hr (by omega) _ hx'
            intro j hj hji
            have := hsame (j + 1) (by omega) (by omega)
            have harith : pos + 64 * (j + 1) = pos + 64 + 64 * j := by ring
            rwa [harith] at this
          simp only [readSlots, h0, he, hrest, List.set]

/-- Successful slot reads need the file to extend past the last slot. -/
theorem readSlots_size {fs : VFile} {pos k : Nat} {es : List FileEntry}
    (h : readSlots fs pos k = some es) : pos + 64 * k ≤ fs.size ∨ k = 0 := by
  induction k generalizing pos es with
  | zero => right; rfl
  | succ k ih =>
    left
    simp only [readSlots] at h
    cases he : FileEntry.unpack (readAt fs pos 64) with
    | none => rw [he] at h; simp at h
    | some e =>
      cases hr : readSlots fs (pos + 64) k with
      | none => rw [he, hr] at h; simp at h
      | some rest =>
        have hlen : (readAt fs pos 64).length = 64 := FileEntry.entry_unpack_length he
        rw [length_readAt] at hlen
        have h1 : pos + 64 ≤ fs.size := by omega
        rcases ih hr with h2 | h2
        · omega
        · subst h2; omega

theorem read_entries_length {fs : VFile} {es : List FileEntry}
    (h : read_entries fs = some es) : es.length = 32 := readSlots_length h

theorem read_entries_size {fs : VFile} {es : List FileEntry}
    (h : read_entries fs = some es) : 2112 ≤ fs.size := by
  rcases readSlots_size h with h1 | h1
  · omega
  · cases h1

theorem read_entries_get {fs : VFile} {es : List FileEntry}
    (h : read_entries fs = some es) :
    ∀ i < 32, FileEntry.unpack (readAt fs (64 + 64 * i) 64) = some (es.getD i default) :=
  readSlots_get h

/-! ### Facts about `firstIdx` -/

theorem firstIdx_lt {α : Type} {p : α → Bool} {l : List α} {i : Nat}
    (h : firstIdx p l = some i) : i < l.length := by
  induction l generalizing i with
  | nil => simp [firstIdx] at h
  | cons x rest ih =>
    simp only [firstIdx] at h
    split at h
    · cases h; simp
    · cases hr : firstIdx p rest with
      | none => rw [hr] at h; simp at h
      | some j =>
        rw [hr] at h
        simp only [Option.map_some', Option.some.injEq] at h
        subst h
        have := ih hr
        simp
        omega

theorem firstIdx_getD {α : Type} [Inhabited α] {p : α → Bool} {l : List α} {i : Nat}
    (h : firstIdx p l = some i) : p (l.getD i default) = true := by
  induction l generalizing i with
  | nil => simp [firstIdx] at h
  | cons x rest ih =>
    simp only [firstIdx] at h
    split at h
    case isTrue hp => cases h; simpa using hp
    case isFalse hp =>
      cases hr : firstIdx p rest with
      | none => rw [hr] at h; simp at h
      | some j =>
        rw [hr] at h
        simp only [Option.map_some', Option.some.injEq] at h
        subst h
        simpa using ih hr

theorem firstIdx_earlier {α : Type} [Inhabited α] {p : α → Bool} {l : List α} {i : Nat}
    (h : firstIdx p l = some i) : ∀ j < i, p (l.getD j default) = false := by
  induction l generalizing i with
  | nil => simp [firstIdx] at h
  | cons x rest ih =>
    simp only [firstIdx] at h
    split at h
    case isTrue hp => cases h; omega
    case isFalse hp =>
      cases hr : firstIdx p rest with
      | none => rw [hr] at h; simp at h
      | some j' =>
        rw [hr] at h
        simp only [Option.map_some', Option.some.injEq] at h
        subst h
        intro j hj
        cases j with
        | zero => simpa using hp
        | succ j => simpa using ih hr j (by omega)

theorem firstIdx_none {α : Type} {p : α → Bool} {l : List α}
    (h : firstIdx p l = none) : ∀ x ∈ l, p x = false := by
  induction l with
  | nil => simp
  | cons x rest ih =>
    simp only [firstIdx] at h
    split at h
    · cases h
    case isFalse hp =>
      intro y hy
      rcases List.mem_cons.mp hy with rfl | hy'
      · simpa using hp
      · cases hr : firstIdx p rest with
        | none => exact ih hr y hy'
        | some j => rw [hr] at h; simp at h

/-! ### Counting under a positional update -/

theorem length_filter_set {α : Type} [Inhabited α] (p : α → Bool) (l : List α)
    (i : Nat) (x : α) (hi : i < l.length) :
    ((l.set i x).filter p).length + (if p (l.getD i default) then 1 else 0)
      = (l.filter p).length + (if p x then 1 else 0) := by
  induction l generalizing i with
  | nil => simp at hi
  | cons y rest ih =>
    cases i with
    | zero =>
      simp only [List.set_cons_zero, List.getD_cons_zero, List.filter_cons]
      by_cases hy : p y <;> by_cases hx : p x <;> simp [hy, hx]
    | succ i =>
      have hrec := ih i (by simpa using hi)
      simp only [List.set_cons_succ, List.getD_cons_succ, List.filter_cons]
      by_cases hy : p y <;> simp only [hy, if_true, if_false, List.length_cons,
        Bool.false_eq_true, if_neg, ite_false, ite_true] <;> omega


/-! ### The claims -/

/-- C10: `rmfs` first asserts that a host-filesystem file of the given
name exists; when none does, it fails before opening or reading the
container — for every container, including one holding a live entry of
that exact name — and the container is unchanged. -/
theorem C10_rmfs_requires_host_file (fs : VFile) (host : HostFS) (n : List Nat)
    (h : hostLookup host n = none) :
    rmfs fs host n = .err .fileMissing fs := by
  unfold rmfs
  rw [h]

theorem C10_witness :
    rmfs demoFs [] [98] = .err .fileMissing demoFs ∧
      ((read_entries demoFs).getD []).any
        (fun e => decide (e.name = 98 :: List.replicate 31 0) && (e.flag == 0)) = true :=
  ⟨C10_rmfs_requires_host_file demoFs [] [98] rfl, by decide⟩

/-- C5 counterexample: a 64-byte frame whose magic is not `ZVFSDSK1` and
whose version byte is not 1 is accepted by `Header.unpack` (hence by
`read_header`); no `Malformed` failure exists in the code. -/
theorem C5_counterexample :
    Header.unpack badFrame = some badHeader ∧
      badHeader.magic ≠ defaultHeader.magic ∧ badHeader.version ≠ 1 :=
  ⟨by decide, by decide, by decide⟩

/-- C5 (amended): reading the container header performs no validation at
all: `Header.unpack` succeeds on every 64-byte frame, whatever its magic
and version bytes hold, and every operation proceeds on such a
container. -/
theorem C5_read_header_no_validation (b : List Nat) (hb : b.length = 64) :
    ∃ h, Header.unpack b = some h :=
  Header.unpack_total hb

theorem C5_witness : ∃ h, Header.unpack badFrame = some h :=
  C5_read_header_no_validation badFrame (by decide)

/-- C6: codec round-trips are bit-exact in both directions for both
record kinds.  Every 64-byte frame unpacks (reserved fields preserved
verbatim), and re-packing reproduces the frame; packing a value that
conforms to the schema (byte-string fields of exact width, unsigned
fields in range — `pack` fails otherwise) and unpacking restores the
value. -/
theorem C6_codec_roundtrip :
    (∀ b : List Nat, b.length = 64 → (∀ x ∈ b, x < 256) →
      ∃ h, Header.unpack b = some h ∧ Header.pack h = some b) ∧
    (∀ b : List Nat, b.length = 64 → (∀ x ∈ b, x < 256) →
      ∃ e, FileEntry.unpack b = some e ∧ FileEntry.pack e = some b) ∧
    (∀ (h : Header) (b : List Nat), Header.pack h = some b →
      h.magic.length = 8 → h.reserved2.length = 26 → Header.unpack b = some h) ∧
    (∀ (e : FileEntry) (b : List Nat), FileEntry.pack e = some b →
      e.name.length = 32 → e.reserved1.length = 12 → FileEntry.unpack b = some e) := by
  refine ⟨?_, ?_, ?_, ?_⟩
  · intro b hb hlt
    obtain ⟨h, hu⟩ := Header.unpack_total hb
    exact ⟨h, hu, Header.pack_of_unpack hu hlt⟩
  · intro b hb hlt
    obtain ⟨e, hu⟩ := FileEntry.entry_unpack_total hb
    exact ⟨e, hu, FileEntry.entry_pack_of_unpack hu hlt⟩
  · intro h b hp hm hr
    exact Header.unpack_of_pack hp hm hr
  · intro e b hp hm hr
    exact FileEntry.entry_unpack_of_pack hp hm hr

theorem C6_witness :
    (∃ h, Header.unpack (List.replicate 64 3) = some h ∧
      Header.pack h = some (List.replicate 64 3)) ∧
    (∃ e, FileEntry.unpack (List.replicate 64 3) = some e ∧
      FileEntry.pack e = some (List.replicate 64 3)) ∧
    Header.unpack ((defaultHeader.pack).getD []) = some defaultHeader ∧
    FileEntry.unpack ((emptyEntry.pack).getD []) = some emptyEntry := by
  refine ⟨C6_codec_roundtrip.1 _ (by decide) (by decide),
    C6_codec_roundtrip.2.1 _ (by decide) (by decide),
    C6_codec_roundtrip.2.2.1 defaultHeader _ (by decide) (by decide) (by decide),
    C6_codec_roundtrip.2.2.2 emptyEntry _ (by decide) (by decide) (by decide)⟩

/-- C1 counterexample: on a container holding a zero-length file `x`,
`catfs` does not emit 0 bytes: it prints a decoded, prefixed line
(`Content of file x: ` and a newline), while `getfs` on the same entry
yields the empty payload. -/
theorem C1_counterexample :
    getfs c1fs [120] = .ok [] ∧
      catfs c1fs [120] = .ok (catfsPrefixCodes ++ [120, 58, 32, 10]) ∧
      catfs c1fs [120] ≠ .ok [] :=
  ⟨by decide, by decide, by decide⟩

/-- C1 (amended): `catfs` reads exactly `entry.length` bytes starting at
`entry.start` for the first entry whose 32-byte name matches, but then
UTF-8-decodes them and prints them surrounded by `Content of file
<name>: ` and a trailing newline (failing on undecodable payloads); for
a stored file of length 0 standard output receives that surrounding text
alone, not 0 bytes. -/
theorem C1_catfs_output (fs : VFile) (file filename : List Nat)
    (es : List FileEntry) (i : Nat) (s : List Nat)
    (h1 : encode_filename file = some filename)
    (h2 : read_entries fs = some es)
    (h3 : compare_filenames es filename = some i)
    (h4 : utf8Decode
      (readAt fs (es.getD i default).start.toNat (es.getD i default).length.toNat) = some s) :
    catfs fs file = .ok (catfsPrefixCodes ++ file ++ [58, 32] ++ s ++ [10]) := by
  unfold catfs
  simp only [h1, h2, h3, h4]

theorem C1_witness :
    catfs c1fs [120] = .ok (catfsPrefixCodes ++ [120] ++ [58, 32] ++ [] ++ [10]) :=
  C1_catfs_output c1fs [120] (120 :: List.replicate 31 0)
    ((read_entries c1fs).getD []) 0 [] (by decide) (by decide) (by decide) (by decide)

/-- C2: on a container whose 32 slots are all occupied, `addfs` does not
fail with a clean no-free-slot error and does not leave the container
unchanged: it first writes the payload and its padding at
`next_free_offset` (growing the file from 2112 to 2176 bytes here) and
then crashes with a `TypeError` when it uses the missing slot index
(`None * 64`). -/
theorem C2_full_container_behavior :
    ((read_entries fullContainer).getD []).all (fun e => !e.is_empty) = true ∧
      errOf (addfs 0 fullContainer [([120], [1])] [120]) = some .typeErrorNone ∧
      fullContainer.size = 2112 ∧
      (fileOf (addfs 0 fullContainer [([120], [1])] [120])).size = 2176 ∧
      fullContainer.data 2112 = 0 ∧
      (fileOf (addfs 0 fullContainer [([120], [1])] [120])).data 2112 = 1 :=
  ⟨by decide, by decide, by decide, by decide, by decide, by decide⟩

/-- C3: removing the already-deleted entry `a` from `demoFs` raises no
`AlreadyDeleted` error: the operation succeeds, decrements `file_count`
to 0 and increments `deleted_files` from 1 to 2, although no entry's
flag transitions from 0 to 1 (exactly one entry is flagged before and
after). -/
theorem C3_double_remove_behavior :
    (((read_entries demoFs).getD []).getD 0 default).flag = 1 ∧
      rmfs demoFs c3host [97] = .ok c3after ∧
      (read_header demoFs).map (fun h => (h.file_count, h.deleted_files)) = some (1, 1) ∧
      (read_header c3after).map (fun h => (h.file_count, h.deleted_files)) = some (0, 2) ∧
      flaggedCount ((read_entries demoFs).getD []) = 1 ∧
      flaggedCount ((read_entries c3after).getD []) = 1 :=
  ⟨by decide, rfl, by decide, by decide, by decide, by decide⟩

/-- C4 counterexample: the sequence `mkfs; addfs a; addfs b; rmfs a;
rmfs a` consists of successful operations only, yet afterwards
`header.deleted_files` is 2 while exactly one entry is flagged. -/
theorem C4_counterexample :
    errOf (addfs 0 mkfs c4host [97]) = none ∧
      errOf (addfs 0 c4s1 c4host [98]) = none ∧
      errOf (rmfs c4s2 c4host [97]) = none ∧
      errOf (rmfs c4s3 c4host [97]) = none ∧
      (read_header c4s4).map (fun h => h.deleted_files) = some 2 ∧
      flaggedCount ((read_entries c4s4).getD []) = 1 :=
  ⟨by decide, by decide, by decide, by decide, by decide, by decide⟩



/-- Any error raised in the allocation half of `addfs` is the
`TypeError` for a missing free slot or a `struct.error`. -/
theorem addfs_alloc_err {f2 : VFile} {fp : Option Nat} {ne : FileEntry} {h2 : Header}
    {E : PyErr} {fsE : VFile} (h : addfs_alloc f2 fp ne h2 = .err E fsE) :
    E = .typeErrorNone ∨ E = .structError := by
  unfold addfs_alloc at h
  repeat' split at h
  all_goals cases h
  · left; rfl
  · right; rfl
  · right; rfl

/-- C9: for the add operation the filename limit is measured in encoded
UTF-8 bytes.  A name whose encoding exceeds 31 bytes is rejected with a
name-length error (the character-count `ValueError` of `encode_filename`
or the byte-count `AssertionError` of `addfs`) before anything is
written; a name whose encoding is at most 31 bytes passes both checks,
so any failure of the add is not a name-length error. -/
theorem C9_name_length_limit (now : Int) (fs : VFile) (host : HostFS) (n : List Nat)
    (hv : ValidName n) :
    (31 < (utf8 n).length →
      ∀ (content : List Nat) (hdr : Header) (entries : List FileEntry),
        hostLookup host n = some content →
        read_header fs = some hdr → read_entries fs = some entries →
        (∀ e ∈ entries, e.name ≠ utf8 n ++ List.replicate (32 - (utf8 n).length) 0) →
        addfs now fs host n = .err .nameTooLongChars fs ∨
          addfs now fs host n = .err .nameTooLongBytes fs) ∧
    ((utf8 n).length ≤ 31 →
      ∀ (E : PyErr) (fs2 : VFile), addfs now fs host n = .err E fs2 →
        E ≠ .nameTooLongChars ∧ E ≠ .nameTooLongBytes) := by
  constructor
  · intro hlong content hdr entries hh hrh hre hnm
    unfold addfs
    split
    next heq =>
      rw [hh] at heq
      exact Option.noConfusion heq
    next fc heq =>
      rw [hh] at heq
      injection heq with heq'
      subst heq'
      split
      next heq2 =>
        rw [hrh] at heq2
        exact Option.noConfusion heq2
      next hdr2 heq2 =>
        rw [hrh] at heq2
        injection heq2 with heq2'
        subst heq2'
        split
        next heq3 =>
          rw [hre] at heq3
          exact Option.noConfusion heq3
        next es2 heq3 =>
          rw [hre] at heq3
          injection heq3 with heq3'
          subst heq3'
          by_cases hchars : 31 < n.length
          · have henc : encode_filename n = none := by
              unfold encode_filename
              rw [if_pos hchars]
            split
            next heq4 => left; rfl
            next fn heq4 =>
              rw [henc] at heq4
              exact Option.noConfusion heq4
          · have henc : encode_filename n =
                some (utf8 n ++ List.replicate (32 - (utf8 n).length) 0) := by
              unfold encode_filename
              rw [if_neg hchars]
            split
            next heq4 =>
              rw [henc] at heq4
              exact Option.noConfusion heq4
            next fn heq4 =>
              rw [henc] at heq4
              injection heq4 with heq4'
              subst heq4'
              split
              next hdup =>
                exfalso
                obtain ⟨e, he, hname⟩ := List.any_eq_true.mp hdup
                exact hnm e he (of_decide_eq_true hname)
              next hdup => right; rfl
  · intro hbytes E fs2 h
    have hchars : ¬ 31 < n.length := by
      have := utf8_length_ge n
      omega
    have henc : encode_filename n =
        some (utf8 n ++ List.replicate (32 - (utf8 n).length) 0) := by
      unfold encode_filename
      rw [if_neg hchars]
    unfold addfs at h
    rw [henc] at h
    repeat' split at h
    all_goals try contradiction
    all_goals try (exfalso; omega)
    all_goals try (cases h; exact ⟨by decide, by decide⟩)
    all_goals rcases addfs_alloc_err h with rfl | rfl <;> exact ⟨by decide, by decide⟩

theorem C9_witness :
    (addfs 0 mkfs [(c9name16, [])] c9name16 = .err .nameTooLongChars mkfs ∨
      addfs 0 mkfs [(c9name16, [])] c9name16 = .err .nameTooLongBytes mkfs) ∧
    (PyErr.fileMissing ≠ PyErr.nameTooLongChars ∧
      PyErr.fileMissing ≠ PyErr.nameTooLongBytes) ∧
    errOf (addfs 0 mkfs [(c9name31, [])] c9name31) = none ∧
    (utf8 c9name16).length = 32 ∧ (utf8 c9name31).length = 31 := by
  refine ⟨(C9_name_length_limit 0 mkfs [(c9name16, [])] c9name16 (by decide)).1
      (by decide) [] defaultHeader ((read_entries mkfs).getD [])
      (by decide) (by decide) (by decide) (by decide),
    (C9_name_length_limit 0 mkfs [] c9name31 (by decide)).2
      (by decide) .fileMissing mkfs rfl,
    by decide, by decide, by decide⟩

/-- Setting a slot and reading it back. -/
theorem getD_set_self {α : Type} [Inhabited α] {l : List α} {i : Nat} (x : α)
    (hi : i < l.length) : (l.set i x).getD i default = x := by
  induction l generalizing i with
  | nil => simp at hi
  | cons y rest ih =>
    cases i with
    | zero => simp
    | succ i => simpa using ih (by simpa using hi)

/-- Setting one slot leaves the others unchanged. -/
theorem getD_set_ne {α : Type} [Inhabited α] {l : List α} {i j : Nat} (x : α)
    (hij : i ≠ j) : (l.set i x).getD j default = l.getD j default := by
  induction l generalizing i j with
  | nil => rfl
  | cons y rest ih =>
    cases i with
    | zero =>
      cases j with
      | zero => exact absurd rfl hij
      | succ j => simp
    | succ i =>
      cases j with
      | zero => simp
      | succ j => simpa using ih (by omega)

/-- Characterisation of `firstIdx`: the first satisfying index. -/
theorem firstIdx_eq {α : Type} [Inhabited α] {p : α → Bool} {l : List α} {i : Nat}
    (hi : i < l.length) (hp : p (l.getD i default) = true)
    (hlow : ∀ j < i, p (l.getD j default) = false) : firstIdx p l = some i := by
  induction l generalizing i with
  | nil => simp at hi
  | cons x rest ih =>
    cases i with
    | zero =>
      have hx : p x = true := by simpa using hp
      simp [firstIdx, hx]
    | succ i =>
      have hx : p x = false := by simpa using hlow 0 (Nat.succ_pos i)
      have hrest : firstIdx p rest = some i := by
        apply ih
        · simpa using hi
        · simpa using hp
        · intro j hj
          simpa using hlow (j + 1) (by omega)
      simp only [firstIdx]
      rw [if_neg (by simp [hx]), hrest]
      rfl

/-- Inversion of a successful `addfs_alloc`. -/
theorem addfs_alloc_ok {f2 : VFile} {fp : Option Nat} {ne : FileEntry} {h2 : Header}
    {out : VFile} (h : addfs_alloc f2 fp ne h2 = .ok out) :
    ∃ pos eb hb, fp = some pos ∧ FileEntry.pack ne = some eb ∧
      Header.pack h2 = some hb ∧
      out = writeAt (writeAt f2 (64 + pos * 64) eb) 0 hb := by
  unfold addfs_alloc at h
  split at h
  next => exact OpResult.noConfusion h
  next pos =>
    split at h
    next => exact OpResult.noConfusion h
    next eb heb =>
      split at h
      next => exact OpResult.noConfusion h
      next hb hhb =>
        injection h with h
        exact ⟨pos, eb, hb, rfl, heb, hhb, h.symm⟩

/-- Reading the payload back through the four writes performed by a
successful `addfs` (payload, padding, entry frame, header frame). -/
theorem readback_payload (fs : VFile) (p eb hb : List Nat) (cdo psz pos : Nat)
    (heb : eb.length = 64) (hhb : hb.length = 64) (hpos : pos < 32) (hcdo : 2112 ≤ cdo)
    (hpad : psz = 0 ∨ 0 < p.length) :
    readAt (writeAt (writeAt (writeAt (writeAt fs cdo p) (cdo + p.length)
      (List.replicate psz 0)) (64 + pos * 64) eb) 0 hb) cdo p.length = p := by
  rw [readAt_writeAt_right hb (by rw [hhb]; omega)]
  rw [readAt_writeAt_right eb (by rw [heb]; omega)]
  rcases hpad with h0 | h0
  · rw [h0, List.replicate_zero, writeAt_nil]
    exact readAt_writeAt_self fs cdo p
  · have hp : p ≠ [] := by
      intro he
      rw [he] at h0
      simp at h0
    rw [readAt_writeAt_left (List.replicate psz 0) (Nat.le_refl _)
      (by rw [size_writeAt hp]; omega)]
    exact readAt_writeAt_self fs cdo p

/-- Reading the entry table back through the four writes performed by a
successful `addfs`: only the chosen slot changes. -/
theorem readback_table (fs : VFile) (p eb hb : List Nat) (cdo psz pos : Nat)
    (entries : List FileEntry) (x : FileEntry)
    (hre : read_entries fs = some entries)
    (hx : FileEntry.unpack eb = some x)
    (heb : eb.length = 64) (hhb : hb.length = 64) (hpos : pos < 32) (hcdo : 2112 ≤ cdo) :
    read_entries (writeAt (writeAt (writeAt (writeAt fs cdo p) (cdo + p.length)
      (List.replicate psz 0)) (64 + pos * 64) eb) 0 hb) = some (entries.set pos x) := by
  have hsz : 2112 ≤ fs.size := read_entries_size hre
  have hsz1 : fs.size ≤ (writeAt fs cdo p).size := size_writeAt_ge fs cdo p
  have hsz2 : (writeAt fs cdo p).size ≤
      (writeAt (writeAt fs cdo p) (cdo + p.length) (List.replicate psz 0)).size :=
    size_writeAt_ge _ _ _
  unfold read_entries
  refine readSlots_update hre hpos ?_ ?_
  · intro j hj hjpos
    rw [readAt_writeAt_right hb (by rw [hhb]; omega)]
    rcases Nat.lt_or_ge j pos with hlt | hge
    · rw [readAt_writeAt_left eb (by omega) (by omega)]
      rw [readAt_writeAt_left (List.replicate psz 0) (by omega) (by omega)]
      rw [readAt_writeAt_left p (by omega) (by omega)]
    · have hgt : pos < j := by omega
      rw [readAt_writeAt_right eb (by rw [heb]; omega)]
      rw [readAt_writeAt_left (List.replicate psz 0) (by omega) (by omega)]
      rw [readAt_writeAt_left p (by omega) (by omega)]
  · rw [readAt_writeAt_right hb (by rw [hhb]; omega)]
    have harith : 64 + 64 * pos = 64 + pos * 64 := by ring
    rw [harith]
    have hself := readAt_writeAt_self
      (writeAt (writeAt fs cdo p) (cdo + p.length) (List.replicate psz 0)) (64 + pos * 64) eb
    rw [heb] at hself
    rw [hself]
    exact hx

/-- C7: add/extract round trip.  After a successful `addfs` of host file
`n` with payload `p` into a well-formed container (one whose data region
starts at or after byte 2112, as `next_free_offset` records), `getfs` of
`n` on the resulting container yields exactly the bytes `p`. -/
theorem C7_add_extract (now : Int) (fs fs' : VFile) (host : HostFS)
    (n p : List Nat) (hdr : Header)
    (hp : hostLookup host n = some p)
    (hh : read_header fs = some hdr)
    (hlay : 2112 ≤ hdr.next_free_offset.toNat)
    (hadd : addfs now fs host n = .ok fs') :
    getfs fs' n = .ok p := by
  unfold addfs at hadd
  split at hadd
  next heq => rw [hp] at heq; exact Option.noConfusion heq
  next content heq =>
  rw [hp] at heq
  injection heq with heq
  subst heq
  split at hadd
  next heq => rw [hh] at heq; exact Option.noConfusion heq
  next header_fs heq =>
  rw [hh] at heq
  injection heq with heq
  subst heq
  split at hadd
  next => exact OpResult.noConfusion hadd
  next entries hre =>
  split at hadd
  next => exact OpResult.noConfusion hadd
  next filename henc =>
  unfold encode_filename at henc
  split at henc
  next hchars => exact Option.noConfusion henc
  next hchars =>
  injection henc with henc
  subst henc
  split at hadd
  next hdup => exact OpResult.noConfusion hadd
  next hdup =>
  split at hadd
  next hbig => exact OpResult.noConfusion hadd
  next hbig =>
  obtain ⟨pos, eb, hb, hfp, heb, hhb, hfs'⟩ := addfs_alloc_ok hadd
  subst hfs'
  have hlen32 : entries.length = 32 := read_entries_length hre
  have hpos32 : pos < 32 := by
    have := firstIdx_lt hfp
    omega
  have heblen : eb.length = 64 := FileEntry.entry_pack_length heb
  have hblen : hb.length = 64 := Header.pack_length hhb
  have hall : ∀ e ∈ entries,
      e.name ≠ utf8 n ++ List.replicate (32 - (utf8 n).length) 0 := by
    intro e he hne
    exact hdup (List.any_eq_true.mpr ⟨e, he, by simpa using hne⟩)
  have hpad : (if p.length < (p.length + 63) / 64 * 64 then
      (p.length + 63) / 64 * 64 - p.length else 0) = 0 ∨ 0 < p.length := by
    by_cases hc : p.length < (p.length + 63) / 64 * 64
    · right
      by_contra h0
      have hp0 : p.length = 0 := by omega
      rw [hp0] at hc
      exact absurd hc (by decide)
    · left
      rw [if_neg hc]
  have hname : (utf8 n ++ List.replicate (32 - (utf8 n).length) 0).length = 32 := by
    simp only [List.length_append, List.length_replicate]
    omega
  have hx : FileEntry.unpack eb = some
      ⟨utf8 n ++ List.replicate (32 - (utf8 n).length) 0,
        (hdr.next_free_offset.toNat : Int), (p.length : Int), 0, 0, 0, now,
        List.replicate 12 0⟩ :=
    FileEntry.entry_unpack_of_pack heb hname (by simp)
  have hre2 := readback_table fs p eb hb hdr.next_free_offset.toNat
    (if p.length < (p.length + 63) / 64 * 64 then (p.length + 63) / 64 * 64 - p.length else 0)
    pos entries _ hre hx heblen hblen hpos32 hlay
  have hrd := readback_payload fs p eb hb hdr.next_free_offset.toNat
    (if p.length < (p.length + 63) / 64 * 64 then (p.length + 63) / 64 * 64 - p.length else 0)
    pos heblen hblen hpos32 hlay hpad
  unfold getfs
  have henc2 : encode_filename n =
      some (utf8 n ++ List.replicate (32 - (utf8 n).length) 0) := by
    unfold encode_filename
    rw [if_neg hchars]
  split
  next heq => rw [henc2] at heq; exact Option.noConfusion heq
  next fn heq =>
  rw [henc2] at heq
  have heq2 := Option.some.inj heq
  subst heq2
  split
  next heq => rw [hre2] at heq; exact Option.noConfusion heq
  next entries2 heq =>
  rw [hre2] at heq
  have heq3 := Option.some.inj heq
  subst heq3
  have hcf : compare_filenames
      (entries.set pos ⟨utf8 n ++ List.replicate (32 - (utf8 n).length) 0,
        (hdr.next_free_offset.toNat : Int), (p.length : Int), 0, 0, 0, now,
        List.replicate 12 0⟩)
      (utf8 n ++ List.replicate (32 - (utf8 n).length) 0) = some pos := by
    unfold compare_filenames
    apply firstIdx_eq
    · rw [List.length_set]
      omega
    · rw [getD_set_self _ (show pos < entries.length by omega)]
      simp
    · intro j hj
      rw [getD_set_ne _ (show pos ≠ j by omega)]
      simp only [decide_eq_false_iff_not]
      have hmem : entries.getD j default ∈ entries := by
        rw [List.getD_eq_getElem entries default (show j < entries.length by omega)]
        apply List.getElem_mem
      exact hall _ hmem
  split
  next heq => rw [hcf] at heq; exact Option.noConfusion heq
  next idx heq =>
  rw [hcf] at heq
  have heq4 := Option.some.inj heq
  subst heq4
  rw [getD_set_self _ (show pos < entries.length by omega)]
  exact congrArg Except.ok hrd

theorem C7_witness :
    getfs c7fs [97] = .ok [104, 105] :=
  C7_add_extract 0 mkfs c7fs c7host [97] [104, 105] defaultHeader rfl (by decide)
    (by decide) rfl

/-- Elements selected by `getD` below the length are members. -/
theorem getD_mem {α : Type} [Inhabited α] {l : List α} {i : Nat} (h : i < l.length) :
    l.getD i default ∈ l := by
  rw [List.getD_eq_getElem _ _ h]
  apply List.getElem_mem

/-- A member satisfying the predicate makes the filtered list non-empty. -/
theorem filter_length_pos {α : Type} (p : α → Bool) {l : List α} {x : α}
    (hx : x ∈ l) (hp : p x = true) : 0 < (l.filter p).length := by
  have hm : x ∈ l.filter p := List.mem_filter.mpr ⟨hx, hp⟩
  exact List.length_pos.mpr (List.ne_nil_of_mem hm)

/-- Filtering keeps everything when the predicate holds at every index. -/
theorem length_filter_all {α : Type} [Inhabited α] (p : α → Bool) (l : List α)
    (h : ∀ j < l.length, p (l.getD j default) = true) : (l.filter p).length = l.length := by
  induction l with
  | nil => rfl
  | cons x rest ih =>
    have hx : p x = true := by simpa using h 0 (by simp)
    have hrest := ih (fun j hj => by simpa using h (j + 1) (by simpa using hj))
    simp [hx, hrest]

/-- Filtering keeps nothing when the predicate fails at every index. -/
theorem length_filter_none {α : Type} [Inhabited α] (p : α → Bool) (l : List α)
    (h : ∀ j < l.length, p (l.getD j default) = false) : (l.filter p).length = 0 := by
  induction l with
  | nil => rfl
  | cons x rest ih =>
    have hx : p x = false := by simpa using h 0 (by simp)
    have hrest := ih (fun j hj => by simpa using h (j + 1) (by simpa using hj))
    simp [hx, hrest]

/-- Elements of a filtered list satisfy the predicate, by index. -/
theorem getD_filter_prop {α : Type} [Inhabited α] (p : α → Bool) (l : List α) (j : Nat)
    (hj : j < (l.filter p).length) : p ((l.filter p).getD j default) = true := by
  have hmem : (l.filter p).getD j default ∈ l.filter p := getD_mem hj
  exact (List.mem_filter.mp hmem).2

/-- Indexing an append below the first part's length. -/
theorem getD_append_lt {α : Type} [Inhabited α] (a b : List α) (i : Nat) (h : i < a.length) :
    (a ++ b).getD i default = a.getD i default := by
  induction a generalizing i with
  | nil => simp at h
  | cons y rest ih =>
    cases i with
    | zero => simp
    | succ i => simpa using ih i (by simpa using h)

/-- Indexing an append at or beyond the first part's length. -/
theorem getD_append_ge {α : Type} [Inhabited α] (a b : List α) (i : Nat) (h : a.length ≤ i) :
    (a ++ b).getD i default = b.getD (i - a.length) default := by
  induction a generalizing i with
  | nil => simp
  | cons y rest ih =>
    cases i with
    | zero => simp at h
    | succ i => simpa [Nat.succ_sub_succ] using ih i (by simpa using h)

/-- Indexing inside a replicated list. -/
theorem getD_replicate {α : Type} [Inhabited α] (k : Nat) (x : α) (i : Nat) (h : i < k) :
    (List.replicate k x).getD i default = x := by
  induction k generalizing i with
  | zero => omega
  | succ k ih =>
    cases i with
    | zero => simp [List.replicate_succ]
    | succ i => simpa [List.replicate_succ] using ih i (by omega)

/-- Live, flagged and empty entries are mutually exclusive, so their
counts never exceed the number of slots. -/
theorem count_three (es : List FileEntry) :
    liveCount es + flaggedCount es + (es.filter (fun e => e.is_empty)).length ≤ es.length := by
  induction es with
  | nil => simp [liveCount, flaggedCount]
  | cons e rest ih =>
    simp only [liveCount, flaggedCount] at ih ⊢
    simp only [List.filter_cons, List.length_cons]
    by_cases h1 : e.is_empty = true
    · simp only [h1]
      simp
      omega
    · by_cases h2 : e.flag = 0
      · simp [h1, h2]
        omega
      · by_cases h3 : e.flag = 1
        · simp [h1, h2, h3]
          omega
        · simp [h1, h2, h3]
          omega

/-- Replacing a non-satisfying slot with a satisfying one grows the
filter count by one. -/
theorem length_filter_set_ft {α : Type} [Inhabited α] {p : α → Bool} {l : List α}
    {i : Nat} {x : α} (hi : i < l.length) (hold : p (l.getD i default) = false)
    (hnew : p x = true) :
    ((l.set i x).filter p).length = (l.filter p).length + 1 := by
  have h := length_filter_set p l i x hi
  rw [hold, hnew] at h
  simpa using h

/-- Replacing a satisfying slot with a non-satisfying one shrinks the
filter count by one. -/
theorem length_filter_set_tf {α : Type} [Inhabited α] {p : α → Bool} {l : List α}
    {i : Nat} {x : α} (hi : i < l.length) (hold : p (l.getD i default) = true)
    (hnew : p x = false) :
    ((l.set i x).filter p).length + 1 = (l.filter p).length := by
  have h := length_filter_set p l i x hi
  rw [hold, hnew] at h
  simpa using h

/-- Replacing a non-satisfying slot with a non-satisfying one keeps the
filter count. -/
theorem length_filter_set_ff {α : Type} [Inhabited α] {p : α → Bool} {l : List α}
    {i : Nat} {x : α} (hi : i < l.length) (hold : p (l.getD i default) = false)
    (hnew : p x = false) :
    ((l.set i x).filter p).length = (l.filter p).length := by
  have h := length_filter_set p l i x hi
  rw [hold, hnew] at h
  simpa using h

/-- The fill loop never shrinks the file. -/
theorem writeEmpties_size_ge (f : VFile) (pos k : Nat) :
    f.size ≤ (writeEmpties f pos k).size := by
  induction k generalizing f pos with
  | zero => exact Nat.le_refl _
  | succ k ih =>
    simp only [writeEmpties]
    exact le_trans (size_writeAt_ge _ _ _) (ih _ _)

/-- The fill loop does not touch bytes below its starting position. -/
theorem writeEmpties_below (f : VFile) (pos k q n : Nat)
    (hqn : q + n ≤ pos) (hsz : q + n ≤ f.size) :
    readAt (writeEmpties f pos k) q n = readAt f q n := by
  induction k generalizing f pos with
  | zero => rfl
  | succ k ih =>
    simp only [writeEmpties]
    rw [ih _ _ (by omega) (le_trans hsz (size_writeAt_ge _ _ _))]
    exact readAt_writeAt_left _ hqn hsz

/-- Reading back the frames written by the fill loop. -/
theorem writeEmpties_frames (f : VFile) (pos k : Nat) :
    ∀ i < k, readAt (writeEmpties f pos k) (pos + 64 * i) 64 = (emptyEntry.pack).getD [] := by
  have hflen : ((emptyEntry.pack).getD ([] : List Nat)).length = 64 := by decide
  have hfne : (emptyEntry.pack).getD ([] : List Nat) ≠ [] := by decide
  induction k generalizing f pos with
  | zero => intro i hi; omega
  | succ k ih =>
    intro i hi
    simp only [writeEmpties]
    cases i with
    | zero =>
      simp only [Nat.mul_zero, Nat.add_zero]
      rw [writeEmpties_below _ _ _ _ _ (by omega)
        (by rw [size_writeAt hfne, hflen]; omega)]
      have hs := readAt_writeAt_self f pos ((emptyEntry.pack).getD [])
      rw [hflen] at hs
      exact hs
    | succ i =>
      have harith : pos + 64 * (i + 1) = (pos + 64) + 64 * i := by ring
      rw [harith]
      exact ih _ _ i (by omega)

/-- The table-rewrite loop never shrinks the file. -/
theorem writePackLoop_size_ge {ks : List FileEntry} {f : VFile} {pos : Nat}
    {f2 : VFile} {pos2 : Nat} (h : writePackLoop f pos ks = .ok (f2, pos2)) :
    f.size ≤ f2.size := by
  induction ks generalizing f pos with
  | nil => cases h; exact Nat.le_refl _
  | cons e rest ih =>
    simp only [writePackLoop] at h
    split at h
    next => exact Except.noConfusion h
    next b heb => exact le_trans (size_writeAt_ge _ _ _) (ih h)

/-- The table-rewrite loop does not touch bytes below its position. -/
theorem writePackLoop_below {ks : List FileEntry} {f : VFile} {pos : Nat}
    {f2 : VFile} {pos2 : Nat} (h : writePackLoop f pos ks = .ok (f2, pos2))
    (q n : Nat) (hqn : q + n ≤ pos) (hsz : q + n ≤ f.size) :
    readAt f2 q n = readAt f q n := by
  induction ks generalizing f pos with
  | nil => cases h; rfl
  | cons e rest ih =>
    simp only [writePackLoop] at h
    split at h
    next => exact Except.noConfusion h
    next b heb =>
      have hb64 := FileEntry.entry_pack_length heb
      rw [ih h (by omega) (le_trans hsz (size_writeAt_ge _ _ _))]
      exact readAt_writeAt_left b hqn hsz

/-- The table-rewrite loop: final position and frame readback. -/
theorem writePackLoop_spec {ks : List FileEntry} {f : VFile} {pos : Nat}
    {f2 : VFile} {pos2 : Nat} (h : writePackLoop f pos ks = .ok (f2, pos2)) :
    pos2 = pos + 64 * ks.length ∧
    ∀ i < ks.length, ∃ b, FileEntry.pack (ks.getD i default) = some b ∧
      readAt f2 (pos + 64 * i) 64 = b := by
  induction ks generalizing f pos with
  | nil =>
    cases h
    exact ⟨by simp, by intro i hi; simp at hi⟩
  | cons e rest ih =>
    simp only [writePackLoop] at h
    split at h
    next => exact Except.noConfusion h
    next b heb =>
      have hb64 := FileEntry.entry_pack_length heb
      rw [hb64] at h
      obtain ⟨hpos, hframes⟩ := ih h
      have hbne : b ≠ [] := by
        intro hx
        rw [hx] at hb64
        simp at hb64
      constructor
      · rw [hpos]
        simp only [List.length_cons]
        ring
      · intro i hi
        cases i with
        | zero =>
          refine ⟨b, by simpa using heb, ?_⟩
          simp only [Nat.mul_zero, Nat.add_zero]
          rw [writePackLoop_below h pos 64 (by omega)
            (by rw [size_writeAt hbne, hb64]; omega)]
          have hs := readAt_writeAt_self f pos b
          rw [hb64] at hs
          exact hs
        | succ i =>
          obtain ⟨b2, hp2, hr2⟩ := hframes i (by simpa using hi)
          refine ⟨b2, by simpa using hp2, ?_⟩
          have harith : pos + 64 * (i + 1) = (pos + 64) + 64 * i := by ring
          rw [harith]
          exact hr2

/-- Slots reconstruct from per-slot unpack facts. -/
theorem readSlots_from_getD {fs : VFile} {pos : Nat} {es : List FileEntry}
    (h : ∀ i < es.length, FileEntry.unpack (readAt fs (pos + 64 * i) 64) = some (es.getD i default)) :
    readSlots fs pos es.length = some es := by
  induction es generalizing pos with
  | nil => rfl
  | cons e rest ih =>
    have h0 := h 0 (by simp)
    simp only [Nat.mul_zero, Nat.add_zero, List.getD_cons_zero] at h0
    have hrest : readSlots fs (pos + 64) rest.length = some rest := by
      apply ih
      intro i hi
      have hthis := h (i + 1) (by simpa using hi)
      have harith : pos + 64 * (i + 1) = (pos + 64) + 64 * i := by ring
      rw [harith] at hthis
      simpa using hthis
    show readSlots fs pos (rest.length + 1) = some (e :: rest)
    simp only [readSlots]
    rw [h0, hrest]

/-- The header frame written last is the header read back. -/
theorem read_header_write (f : VFile) (hdr2 : Header) (hb : List Nat)
    (hp : Header.pack hdr2 = some hb) (hm : hdr2.magic.length = 8)
    (hr : hdr2.reserved2.length = 26) :
    read_header (writeAt f 0 hb) = some hdr2 := by
  unfold read_header
  have hlen := Header.pack_length hp
  have hself := readAt_writeAt_self f 0 hb
  rw [hlen] at hself
  rw [hself]
  exact Header.unpack_of_pack hp hm hr

/-- Reading the entry table back through the two writes performed by a
successful `rmfs` (entry frame, header frame). -/
theorem readback_table_rm (fs : VFile) (eb hb : List Nat) (idx : Nat)
    (entries : List FileEntry) (x : FileEntry)
    (hre : read_entries fs = some entries) (hx : FileEntry.unpack eb = some x)
    (heb : eb.length = 64) (hhb : hb.length = 64) (hidx : idx < 32) :
    read_entries (writeAt (writeAt fs (64 + idx * 64) eb) 0 hb) = some (entries.set idx x) := by
  have hsz : 2112 ≤ fs.size := read_entries_size hre
  unfold read_entries
  refine readSlots_update hre hidx ?_ ?_
  · intro j hj hji
    rw [readAt_writeAt_right hb (by rw [hhb]; omega)]
    rcases Nat.lt_or_ge j idx with hlt | hge
    · rw [readAt_writeAt_left eb (by omega) (by omega)]
    · have hgt : idx < j := by omega
      rw [readAt_writeAt_right eb (by rw [heb]; omega)]
  · rw [readAt_writeAt_right hb (by rw [hhb]; omega)]
    have harith : 64 + 64 * idx = 64 + idx * 64 := by ring
    rw [harith]
    have hself := readAt_writeAt_self fs (64 + idx * 64) eb
    rw [heb] at hself
    rw [hself]
    exact hx

/-- Structural equations for the compaction loop. -/
theorem dfrgCopy_fst (f : VFile) (cur : Nat) (e : FileEntry) (rest : List FileEntry) :
    (dfrgCopy f cur (e :: rest)).1 =
      (dfrgCopy (dfrgPost f cur e) (cur + (e.length.toNat + 63) / 64 * 64) rest).1 := rfl

theorem dfrgCopy_cursor (f : VFile) (cur : Nat) (e : FileEntry) (rest : List FileEntry) :
    (dfrgCopy f cur (e :: rest)).2.1 =
      (dfrgCopy (dfrgPost f cur e) (cur + (e.length.toNat + 63) / 64 * 64) rest).2.1 := rfl

theorem dfrgCopy_snd (f : VFile) (cur : Nat) (e : FileEntry) (rest : List FileEntry) :
    (dfrgCopy f cur (e :: rest)).2.2 =
      { e with start := (cur : Int) } ::
        (dfrgCopy (dfrgPost f cur e) (cur + (e.length.toNat + 63) / 64 * 64) rest).2.2 := rfl

/-- One compaction step never shrinks the file. -/
theorem dfrgPost_size_ge (f : VFile) (cur : Nat) (e : FileEntry) :
    f.size ≤ (dfrgPost f cur e).size := by
  simp only [dfrgPost]
  split
  · exact le_trans (size_writeAt_ge _ _ _) (size_writeAt_ge _ _ _)
  · exact size_writeAt_ge _ _ _

/-- One compaction step does not touch bytes below the cursor. -/
theorem dfrgPost_below (f : VFile) (cur : Nat) (e : FileEntry) (q n : Nat)
    (hqn : q + n ≤ cur) (hsz : q + n ≤ f.size) :
    readAt (dfrgPost f cur e) q n = readAt f q n := by
  simp only [dfrgPost]
  split
  · rw [readAt_writeAt_left _ (by omega) (le_trans hsz (size_writeAt_ge _ _ _))]
    exact readAt_writeAt_left _ hqn hsz
  · exact readAt_writeAt_left _ hqn hsz

/-- The compaction loop never shrinks the file. -/
theorem dfrgCopy_size_ge (ks : List FileEntry) (f : VFile) (cur : Nat) :
    f.size ≤ (dfrgCopy f cur ks).1.size := by
  induction ks generalizing f cur with
  | nil => exact Nat.le_refl _
  | cons e rest ih =>
    rw [dfrgCopy_fst]
    exact le_trans (dfrgPost_size_ge f cur e) (ih _ _)

/-- The compaction loop does not touch bytes below the initial cursor. -/
theorem dfrgCopy_below (ks : List FileEntry) (f : VFile) (cur q n : Nat)
    (hqn : q + n ≤ cur) (hsz : q + n ≤ f.size) :
    readAt (dfrgCopy f cur ks).1 q n = readAt f q n := by
  induction ks generalizing f cur with
  | nil => rfl
  | cons e rest ih =>
    rw [dfrgCopy_fst]
    rw [ih _ _ (by omega) (le_trans hsz (dfrgPost_size_ge f cur e))]
    exact dfrgPost_below f cur e q n hqn hsz

/-- The compaction cursor only moves forward. -/
theorem dfrgCopy_cursor_ge (ks : List FileEntry) (f : VFile) (cur : Nat) :
    cur ≤ (dfrgCopy f cur ks).2.1 := by
  induction ks generalizing f cur with
  | nil => exact Nat.le_refl _
  | cons e rest ih =>
    rw [dfrgCopy_cursor]
    exact le_trans (by omega) (ih _ _)

/-- The compaction loop keeps every entry except for its start offset. -/
theorem dfrgCopy_entries_getD (ks : List FileEntry) (f : VFile) (cur : Nat) :
    ((dfrgCopy f cur ks).2.2).length = ks.length ∧
    ∀ j < ks.length, ∃ st : Int,
      ((dfrgCopy f cur ks).2.2).getD j default = { ks.getD j default with start := st } := by
  induction ks generalizing f cur with
  | nil => exact ⟨rfl, by intro j hj; simp at hj⟩
  | cons e rest ih =>
    obtain ⟨ihl, ihg⟩ := ih (dfrgPost f cur e) (cur + (e.length.toNat + 63) / 64 * 64)
    constructor
    · rw [dfrgCopy_snd]
      simp [ihl]
    · intro j hj
      rw [dfrgCopy_snd]
      cases j with
      | zero => exact ⟨(cur : Int), by simp⟩
      | succ j =>
        obtain ⟨st, hst⟩ := ihg j (by simpa using hj)
        exact ⟨st, by simpa using hst⟩


/-- The fresh container satisfies the counter invariant. -/
theorem inv_mkfs : StrongInv mkfs :=
  ⟨defaultHeader, List.replicate 32 emptyEntry, by decide, by decide, by decide, by decide,
    by decide, by decide⟩

/-- A successful `addfs` preserves the counter invariant. -/
theorem inv_addfs {now : Int} {fs fs2 : VFile} {host : HostFS} {n : List Nat}
    (inv : StrongInv fs) (hadd : addfs now fs host n = .ok fs2) : StrongInv fs2 := by
  obtain ⟨hdr, entries0, hh, hre0, hfc, hdf, hsum, hnfo⟩ := inv
  unfold addfs at hadd
  split at hadd
  next heq => exact OpResult.noConfusion hadd
  next content heq =>
  split at hadd
  next heq => rw [hh] at heq; exact Option.noConfusion heq
  next header_fs heq =>
  rw [hh] at heq
  injection heq with heq
  subst heq
  split at hadd
  next heq => rw [hre0] at heq; exact Option.noConfusion heq
  next entries heq =>
  rw [hre0] at heq
  injection heq with heq
  subst heq
  split at hadd
  next => exact OpResult.noConfusion hadd
  next filename henc =>
  unfold encode_filename at henc
  split at henc
  next hchars => exact Option.noConfusion henc
  next hchars =>
  injection henc with henc
  subst henc
  split at hadd
  next hdup => exact OpResult.noConfusion hadd
  next hdup =>
  split at hadd
  next hbig => exact OpResult.noConfusion hadd
  next hbig =>
  obtain ⟨pos, eb, hb, hfp, heb, hhb, hfs2⟩ := addfs_alloc_ok hadd
  subst hfs2
  have h32 : entries0.length = 32 := read_entries_length hre0
  have hpos32 : pos < 32 := by
    have := firstIdx_lt hfp
    omega
  have heblen : eb.length = 64 := FileEntry.entry_pack_length heb
  have hblen : hb.length = 64 := Header.pack_length hhb
  have hall : ∀ e ∈ entries0,
      e.name ≠ utf8 n ++ List.replicate (32 - (utf8 n).length) 0 := by
    intro e he hne
    exact hdup (List.any_eq_true.mpr ⟨e, he, by simpa using hne⟩)
  have hemp : (entries0.getD pos default).is_empty = true := by
    simpa using firstIdx_getD hfp
  have hzero : (entries0.getD pos default).name = List.replicate 32 0 := by
    simpa [FileEntry.is_empty] using hemp
  have hfname : utf8 n ++ List.replicate (32 - (utf8 n).length) 0 ≠ List.replicate 32 0 := by
    intro hcontra
    apply hall _ (getD_mem (show pos < entries0.length by omega))
    rw [hzero, hcontra]
  have hname : (utf8 n ++ List.replicate (32 - (utf8 n).length) 0).length = 32 := by
    simp only [List.length_append, List.length_replicate]
    omega
  have hpad : (if content.length < (content.length + 63) / 64 * 64 then
      (content.length + 63) / 64 * 64 - content.length else 0) = 0 ∨ 0 < content.length := by
    by_cases hc : content.length < (content.length + 63) / 64 * 64
    · right
      by_contra h0
      have hp0 : content.length = 0 := by omega
      rw [hp0] at hc
      exact absurd hc (by decide)
    · left
      rw [if_neg hc]
  have hx : FileEntry.unpack eb = some
      ⟨utf8 n ++ List.replicate (32 - (utf8 n).length) 0,
        (hdr.next_free_offset.toNat : Int), (content.length : Int), 0, 0, 0, now,
        List.replicate 12 0⟩ :=
    FileEntry.entry_unpack_of_pack heb hname (by simp)
  have hre2 := readback_table fs content eb hb hdr.next_free_offset.toNat
    (if content.length < (content.length + 63) / 64 * 64 then
      (content.length + 63) / 64 * 64 - content.length else 0)
    pos entries0 _ hre0 hx heblen hblen hpos32 hnfo
  have hshape := Header.unpack_shape hh
  have hrh2 := read_header_write
    (writeAt (writeAt (writeAt fs hdr.next_free_offset.toNat content)
      (hdr.next_free_offset.toNat + content.length)
      (List.replicate (if content.length < (content.length + 63) / 64 * 64 then
        (content.length + 63) / 64 * 64 - content.length else 0) 0))
      (64 + pos * 64) eb)
    { hdr with
      file_count := hdr.file_count + 1,
      next_free_offset := (hdr.next_free_offset.toNat : Int) +
        (((content.length + 63) / 64 * 64 : Nat) : Int) }
    hb hhb hshape.1 hshape.2.1
  have hold_live : (!(entries0.getD pos default).is_empty &&
      (entries0.getD pos default).flag == 0) = false := by
    rw [hemp]
    simp only [Bool.not_true, Bool.false_and]
  have hold_flag : (!(entries0.getD pos default).is_empty &&
      (entries0.getD pos default).flag == 1) = false := by
    rw [hemp]
    simp only [Bool.not_true, Bool.false_and]
  have hnew_live : (!(FileEntry.is_empty ⟨utf8 n ++ List.replicate (32 - (utf8 n).length) 0,
      (hdr.next_free_offset.toNat : Int), (content.length : Int), 0, 0, 0, now,
      List.replicate 12 0⟩) &&
      (FileEntry.flag ⟨utf8 n ++ List.replicate (32 - (utf8 n).length) 0,
      (hdr.next_free_offset.toNat : Int), (content.length : Int), 0, 0, 0, now,
      List.replicate 12 0⟩) == 0) = true := by
    show (!(decide ((utf8 n ++ List.replicate (32 - (utf8 n).length) 0) =
      List.replicate 32 0)) && ((0 : Int) == 0)) = true
    rw [decide_eq_false hfname]
    decide
  have hnew_flag : (!(FileEntry.is_empty ⟨utf8 n ++ List.replicate (32 - (utf8 n).length) 0,
      (hdr.next_free_offset.toNat : Int), (content.length : Int), 0, 0, 0, now,
      List.replicate 12 0⟩) &&
      (FileEntry.flag ⟨utf8 n ++ List.replicate (32 - (utf8 n).length) 0,
      (hdr.next_free_offset.toNat : Int), (content.length : Int), 0, 0, 0, now,
      List.replicate 12 0⟩) == 1) = false := by
    show (!(decide ((utf8 n ++ List.replicate (32 - (utf8 n).length) 0) =
      List.replicate 32 0)) && ((0 : Int) == 1)) = false
    simp
  have hcnt_live := @length_filter_set_ft FileEntry _ (fun e => !e.is_empty && e.flag == 0)
    entries0 pos ⟨utf8 n ++ List.replicate (32 - (utf8 n).length) 0,
      (hdr.next_free_offset.toNat : Int), (content.length : Int), 0, 0, 0, now,
      List.replicate 12 0⟩ (show pos < entries0.length by omega) hold_live hnew_live
  have hcnt_flag := @length_filter_set_ff FileEntry _ (fun e => !e.is_empty && e.flag == 1)
    entries0 pos ⟨utf8 n ++ List.replicate (32 - (utf8 n).length) 0,
      (hdr.next_free_offset.toNat : Int), (content.length : Int), 0, 0, 0, now,
      List.replicate 12 0⟩ (show pos < entries0.length by omega) hold_flag hnew_flag
  have hempty_pos : 0 < (entries0.filter (fun e => e.is_empty)).length :=
    filter_length_pos _ (getD_mem (show pos < entries0.length by omega)) hemp
  have hthree := count_three entries0
  refine ⟨_, _, hrh2, hre2, ?_, ?_, ?_, ?_⟩
  · show hdr.file_count + 1 = _
    simp only [liveCount] at hfc ⊢
    omega
  · show hdr.deleted_files = _
    simp only [flaggedCount] at hdf ⊢
    omega
  · simp only [liveCount, flaggedCount] at hthree ⊢
    omega
  · show 2112 ≤ ((hdr.next_free_offset.toNat : Int) +
      (((content.length + 63) / 64 * 64 : Nat) : Int)).toNat
    omega

/-- Inversion of a successful `rmfs_write`. -/
theorem rmfs_write_ok {fs : VFile} {fi : Nat} {e2 : FileEntry} {h2 : Header} {out : VFile}
    (h : rmfs_write fs fi e2 h2 = .ok out) :
    ∃ eb hb, FileEntry.pack e2 = some eb ∧ Header.pack h2 = some hb ∧
      out = writeAt (writeAt fs (64 + fi * 64) eb) 0 hb := by
  unfold rmfs_write at h
  split at h
  next => exact OpResult.noConfusion h
  next eb heb =>
    split at h
    next => exact OpResult.noConfusion h
    next hb hhb =>
      injection h with h
      exact ⟨eb, hb, heb, hhb, h.symm⟩

/-- Inversion of a successful `dfrg_finish`. -/
theorem dfrg_finish_ok {fs1 : VFile} {cursor : Nat} {kept2 : List FileEntry}
    {keepLen : Nat} {hdrF : Header} {out : VFile}
    (h : dfrg_finish fs1 cursor kept2 keepLen hdrF = .ok out) :
    ∃ fs2 pos2 hb, writePackLoop fs1 64 kept2 = .ok (fs2, pos2) ∧
      Header.pack { hdrF with
        file_count := (keepLen : Int), deleted_files := 0,
        next_free_offset := (cursor : Int),
        free_entry_offset := ((64 + keepLen * 64 : Nat) : Int) } = some hb ∧
      out = writeAt (writeEmpties fs2 pos2 (32 - keepLen)) 0 hb := by
  unfold dfrg_finish at h
  split at h
  next fsE heq => exact OpResult.noConfusion h
  next fs2 pos2 heq =>
    split at h
    next => exact OpResult.noConfusion h
    next hb hhb =>
      injection h with h
      exact ⟨fs2, pos2, hb, heq, hhb, h.symm⟩

/-- A successful `rmfs` of a still-live entry preserves the counter
invariant. -/
theorem inv_rmfs {fs fs2 : VFile} {host : HostFS} {n : List Nat}
    (inv : StrongInv fs) (hrl : RemovesLive fs n) (h : rmfs fs host n = .ok fs2) :
    StrongInv fs2 := by
  obtain ⟨hdr, entries0, hh, hre0, hfc, hdf, hsum, hnfo⟩ := inv
  unfold rmfs at h
  split at h
  next heq => exact OpResult.noConfusion h
  next content heq =>
  split at h
  next heq2 => exact OpResult.noConfusion h
  next filename henc =>
  split at h
  next heq3 => rw [hh] at heq3; exact Option.noConfusion heq3
  next hdrF heq3 =>
  rw [hh] at heq3
  injection heq3 with heq3
  subst heq3
  split at h
  next heq4 => rw [hre0] at heq4; exact Option.noConfusion heq4
  next entriesF heq4 =>
  rw [hre0] at heq4
  injection heq4 with heq4
  subst heq4
  split at h
  next heq5 => exact OpResult.noConfusion h
  next idx hcmp =>
  obtain ⟨eb, hb, heb, hhb, hout⟩ := rmfs_write_ok h
  subst hout
  have h32 : entries0.length = 32 := read_entries_length hre0
  have hidx32 : idx < 32 := by
    have := firstIdx_lt hcmp
    omega
  have htar : rmTarget fs n = some (entries0.getD idx default) := by
    unfold rmTarget
    rw [henc, hre0]
    show (compare_filenames entries0 filename).map (fun i => entries0.getD i default) =
      some (entries0.getD idx default)
    rw [hcmp]
    rfl
  obtain ⟨hne, hfl0⟩ := hrl _ htar
  have hblen := Header.pack_length hhb
  have heblen := FileEntry.entry_pack_length heb
  have hshapeE := FileEntry.entry_unpack_shape (read_entries_get hre0 idx hidx32)
  have hx : FileEntry.unpack eb = some ⟨(entries0.getD idx default).name, (entries0.getD idx default).start,
      (entries0.getD idx default).length, (entries0.getD idx default).type, 1,
      (entries0.getD idx default).reserved0, (entries0.getD idx default).created,
      (entries0.getD idx default).reserved1⟩ := by
    refine FileEntry.entry_unpack_of_pack heb ?_ ?_
    · exact hshapeE.1
    · exact hshapeE.2.1
  have hre2 : read_entries (writeAt (writeAt fs (64 + idx * 64) eb) 0 hb) =
      some (entries0.set idx ⟨(entries0.getD idx default).name, (entries0.getD idx default).start,
      (entries0.getD idx default).length, (entries0.getD idx default).type, 1,
      (entries0.getD idx default).reserved0, (entries0.getD idx default).created,
      (entries0.getD idx default).reserved1⟩) :=
    readback_table_rm fs eb hb idx entries0 _ hre0 hx heblen hblen hidx32
  have hshape := Header.unpack_shape hh
  have hrh2 := read_header_write (writeAt fs (64 + idx * 64) eb)
    { hdr with deleted_files := hdr.deleted_files + 1, file_count := hdr.file_count - 1 }
    hb hhb hshape.1 hshape.2.1
  have hnamene : (entries0.getD idx default).name ≠ List.replicate 32 0 := by
    simpa [FileEntry.is_empty] using hne
  have hold_live : (!(entries0.getD idx default).is_empty &&
      (entries0.getD idx default).flag == 0) = true := by
    rw [hne, hfl0]
    decide
  have hold_flag : (!(entries0.getD idx default).is_empty &&
      (entries0.getD idx default).flag == 1) = false := by
    rw [hfl0]
    simp
  have hnew_live : (!(FileEntry.is_empty ⟨(entries0.getD idx default).name, (entries0.getD idx default).start,
      (entries0.getD idx default).length, (entries0.getD idx default).type, 1,
      (entries0.getD idx default).reserved0, (entries0.getD idx default).created,
      (entries0.getD idx default).reserved1⟩) &&
      (FileEntry.flag ⟨(entries0.getD idx default).name, (entries0.getD idx default).start,
      (entries0.getD idx default).length, (entries0.getD idx default).type, 1,
      (entries0.getD idx default).reserved0, (entries0.getD idx default).created,
      (entries0.getD idx default).reserved1⟩) == 0) = false := by
    show (!(decide ((entries0.getD idx default).name = List.replicate 32 0)) &&
      ((1 : Int) == 0)) = false
    simp
  have hnew_flag : (!(FileEntry.is_empty ⟨(entries0.getD idx default).name, (entries0.getD idx default).start,
      (entries0.getD idx default).length, (entries0.getD idx default).type, 1,
      (entries0.getD idx default).reserved0, (entries0.getD idx default).created,
      (entries0.getD idx default).reserved1⟩) &&
      (FileEntry.flag ⟨(entries0.getD idx default).name, (entries0.getD idx default).start,
      (entries0.getD idx default).length, (entries0.getD idx default).type, 1,
      (entries0.getD idx default).reserved0, (entries0.getD idx default).created,
      (entries0.getD idx default).reserved1⟩) == 1) = true := by
    show (!(decide ((entries0.getD idx default).name = List.replicate 32 0)) &&
      ((1 : Int) == 1)) = true
    rw [decide_eq_false hnamene]
    decide
  have hcnt_live := @length_filter_set_tf FileEntry _ (fun e => !e.is_empty && e.flag == 0)
    entries0 idx ⟨(entries0.getD idx default).name, (entries0.getD idx default).start,
      (entries0.getD idx default).length, (entries0.getD idx default).type, 1,
      (entries0.getD idx default).reserved0, (entries0.getD idx default).created,
      (entries0.getD idx default).reserved1⟩
    (show idx < entries0.length by omega) hold_live hnew_live
  have hcnt_flag := @length_filter_set_ft FileEntry _ (fun e => !e.is_empty && e.flag == 1)
    entries0 idx ⟨(entries0.getD idx default).name, (entries0.getD idx default).start,
      (entries0.getD idx default).length, (entries0.getD idx default).type, 1,
      (entries0.getD idx default).reserved0, (entries0.getD idx default).created,
      (entries0.getD idx default).reserved1⟩
    (show idx < entries0.length by omega) hold_flag hnew_flag
  have hlive_pos : 0 < liveCount entries0 := by
    unfold liveCount
    exact filter_length_pos _ (getD_mem (show idx < entries0.length by omega)) hold_live
  refine ⟨_, _, hrh2, hre2, ?_, ?_, ?_, ?_⟩
  · show hdr.file_count - 1 = _
    simp only [liveCount] at hfc hlive_pos ⊢
    omega
  · show hdr.deleted_files + 1 = _
    simp only [flaggedCount] at hdf ⊢
    omega
  · simp only [liveCount, flaggedCount] at hsum hlive_pos ⊢
    omega
  · exact hnfo

/-- Rebuilding the table and header after the compaction loop: the new
table is the updated kept entries followed by empty frames, and its
counters are exact. -/
theorem dfrg_rebuild (fs fs2 : VFile) (pos2 : Nat) (hb : List Nat)
    (entries ks : List FileEntry) (hdr2 : Header)
    (hre : read_entries fs = some entries)
    (hks : ks = entries.filter (fun e => !e.is_empty && e.flag == 0))
    (hwpl : writePackLoop (dfrgCopy fs 2112 ks).1 64 ((dfrgCopy fs 2112 ks).2.2) = .ok (fs2, pos2))
    (hhb : Header.pack hdr2 = some hb)
    (hmagic : hdr2.magic.length = 8) (hres : hdr2.reserved2.length = 26) :
    read_header (writeAt (writeEmpties fs2 pos2 (32 - ks.length)) 0 hb) = some hdr2 ∧
    read_entries (writeAt (writeEmpties fs2 pos2 (32 - ks.length)) 0 hb) =
      some ((dfrgCopy fs 2112 ks).2.2 ++ List.replicate (32 - ks.length) emptyEntry) ∧
    liveCount ((dfrgCopy fs 2112 ks).2.2 ++ List.replicate (32 - ks.length) emptyEntry) = ks.length ∧
    flaggedCount ((dfrgCopy fs 2112 ks).2.2 ++ List.replicate (32 - ks.length) emptyEntry) = 0 := by
  have h32 : entries.length = 32 := read_entries_length hre
  have hKS32 : ks.length ≤ 32 := by
    rw [hks]
    have := List.length_filter_le (fun e => !e.is_empty && e.flag == 0) entries
    omega
  have hks_mem : ∀ x ∈ ks, x ∈ entries := by
    rw [hks]
    intro x hx
    exact (List.mem_filter.mp hx).1
  have hks_live : ∀ j < ks.length,
      ((fun e => !e.is_empty && e.flag == 0) (ks.getD j default)) = true := by
    intro j hj
    have hj2 : j < (entries.filter (fun e => !e.is_empty && e.flag == 0)).length := by
      rw [← hks]
      exact hj
    have hp := getD_filter_prop (fun e => !e.is_empty && e.flag == 0) entries j hj2
    rw [hks]
    exact hp
  have hszfs : 2112 ≤ fs.size := read_entries_size hre
  have hsz1 : fs.size ≤ (dfrgCopy fs 2112 ks).1.size := dfrgCopy_size_ge ks fs 2112
  have hsz2 := writePackLoop_size_ge hwpl
  have hblen := Header.pack_length hhb
  obtain ⟨hwpos, hwframes⟩ := writePackLoop_spec hwpl
  obtain ⟨hklen, hkget⟩ := dfrgCopy_entries_getD ks fs 2112
  have hshapes : ∀ x ∈ entries, x.name.length = 32 ∧ x.reserved1.length = 12 := by
    intro x hx
    obtain ⟨i, hi, hxi⟩ := List.mem_iff_getElem.mp hx
    have hu := read_entries_get hre i (by omega)
    have hsx := FileEntry.entry_unpack_shape hu
    have hgetd : entries.getD i default = x := by
      rw [List.getD_eq_getElem _ _ (by omega)]
      exact hxi
    rw [← hgetd]
    exact ⟨hsx.1, hsx.2.1⟩
  have hEmptyUnpack : FileEntry.unpack ((emptyEntry.pack).getD []) = some emptyEntry := by decide
  have hlen2 : ((dfrgCopy fs 2112 ks).2.2 ++ List.replicate (32 - ks.length) emptyEntry).length = 32 := by
    simp only [List.length_append, List.length_replicate, hklen]
    omega
  refine ⟨read_header_write _ _ hb hhb hmagic hres, ?_, ?_, ?_⟩
  · have hslots : ∀ i < ((dfrgCopy fs 2112 ks).2.2 ++
        List.replicate (32 - ks.length) emptyEntry).length,
        FileEntry.unpack (readAt (writeAt (writeEmpties fs2 pos2 (32 - ks.length)) 0 hb)
          (64 + 64 * i) 64) =
        some (((dfrgCopy fs 2112 ks).2.2 ++
          List.replicate (32 - ks.length) emptyEntry).getD i default) := by
      intro i hi
      rw [hlen2] at hi
      rw [readAt_writeAt_right hb (by rw [hblen]; omega)]
      rcases Nat.lt_or_ge i ks.length with hik | hik
      · obtain ⟨b, hpb, hrb⟩ := hwframes i (by omega)
        rw [writeEmpties_below fs2 pos2 _ _ _ (by omega) (by omega)]
        rw [hrb]
        rw [getD_append_lt _ _ _ (by omega)]
        obtain ⟨st, hst⟩ := hkget i (by omega)
        have hsx := hshapes _ (hks_mem _ (getD_mem (show i < ks.length by omega)))
        refine FileEntry.entry_unpack_of_pack hpb ?_ ?_
        · rw [hst]
          exact hsx.1
        · rw [hst]
          exact hsx.2
      · have harith : 64 + 64 * i = pos2 + 64 * (i - ks.length) := by omega
        rw [harith]
        rw [writeEmpties_frames fs2 pos2 _ (i - ks.length) (by omega)]
        rw [getD_append_ge _ _ _ (by omega)]
        rw [hklen]
        rw [getD_replicate _ _ _ (by omega)]
        exact hEmptyUnpack
    have hrs := readSlots_from_getD hslots
    rw [hlen2] at hrs
    exact hrs
  · simp only [liveCount, List.filter_append, List.length_append]
    have h1 : (((dfrgCopy fs 2112 ks).2.2).filter (fun e => !e.is_empty && e.flag == 0)).length =
        ((dfrgCopy fs 2112 ks).2.2).length := by
      apply length_filter_all
      intro j hj
      obtain ⟨st, hst⟩ := hkget j (by omega)
      rw [hst]
      exact hks_live j (by omega)
    have h2 : ((List.replicate (32 - ks.length) emptyEntry).filter
        (fun e => !e.is_empty && e.flag == 0)).length = 0 := by
      apply length_filter_none
      intro j hj
      rw [getD_replicate _ _ _ (by simpa using hj)]
      decide
    rw [h1, h2, hklen]
    omega
  · simp only [flaggedCount, List.filter_append, List.length_append]
    have h1 : (((dfrgCopy fs 2112 ks).2.2).filter (fun e => !e.is_empty && e.flag == 1)).length = 0 := by
      apply length_filter_none
      intro j hj
      obtain ⟨st, hst⟩ := hkget j (by omega)
      rw [hst]
      have hl := hks_live j (by omega)
      simp only [Bool.and_eq_true] at hl
      have hfl : (ks.getD j default).flag = 0 := by simpa using hl.2
      show (!(decide ((ks.getD j default).name = List.replicate 32 0)) &&
        ((ks.getD j default).flag == 1)) = false
      rw [hfl]
      simp
    have h2 : ((List.replicate (32 - ks.length) emptyEntry).filter
        (fun e => !e.is_empty && e.flag == 1)).length = 0 := by
      apply length_filter_none
      intro j hj
      rw [getD_replicate _ _ _ (by simpa using hj)]
      decide
    rw [h1, h2]

/-- A successful `dfrgfs` preserves the counter invariant. -/
theorem inv_dfrg {fs fs2 : VFile} (inv : StrongInv fs) (h : dfrgfs fs = .ok fs2) :
    StrongInv fs2 := by
  obtain ⟨hdr, entries0, hh, hre0, hfc, hdf, hsum, hnfo⟩ := inv
  unfold dfrgfs at h
  split at h
  next heq => rw [hh] at heq; exact Option.noConfusion heq
  next hdrF heq =>
  rw [hh] at heq
  injection heq with heq
  subst heq
  split at h
  next heq => rw [hre0] at heq; exact Option.noConfusion heq
  next entriesF heq =>
  rw [hre0] at heq
  injection heq with heq
  subst heq
  obtain ⟨fs3, pos3, hb, hwpl, hhb, hout⟩ := dfrg_finish_ok h
  subst hout
  have hshape := Header.unpack_shape hh
  obtain ⟨hrh2, hre2, hlive2, hflag2⟩ := dfrg_rebuild fs fs3 pos3 hb entries0
    (entries0.filter (fun e => !e.is_empty && e.flag == 0)) _ hre0 rfl hwpl hhb
    hshape.1 hshape.2.1
  refine ⟨_, _, hrh2, hre2, ?_, ?_, ?_, ?_⟩
  · show ((entries0.filter (fun e => !e.is_empty && e.flag == 0)).length : Int) = _
    rw [hlive2]
  · show (0 : Int) = _
    rw [hflag2]
    rfl
  · rw [hlive2, hflag2]
    have := List.length_filter_le (fun e => !e.is_empty && e.flag == 0) entries0
    have h32 := read_entries_length hre0
    omega
  · show 2112 ≤
      (((dfrgCopy fs 2112 (entries0.filter (fun e => !e.is_empty && e.flag == 0))).2.1 : Int)).toNat
    have := dfrgCopy_cursor_ge (entries0.filter (fun e => !e.is_empty && e.flag == 0)) fs 2112
    omega

/-- Every container reachable by successful operations satisfies the
counter invariant. -/
theorem Reach_StrongInv {fs : VFile} (h : Reach fs) : StrongInv fs := by
  induction h with
  | init => exact inv_mkfs
  | add hR hadd ih => exact inv_addfs ih hadd
  | remove hR hrl hrm ih => exact inv_rmfs ih hrl hrm
  | defrag hR hd ih => exact inv_dfrg ih hd

/-- C4 (amended): for every container reachable from `mkfs` by successful
operations in which every remove targets a still-live entry,
`header.file_count` equals the number of live entries, `header.deleted_files`
equals the number of flagged entries, and their sum is at most 32. -/
theorem C4_counter_invariant (fs : VFile) (h : Reach fs) :
    ∃ hdr entries, read_header fs = some hdr ∧ read_entries fs = some entries ∧
      hdr.file_count = (liveCount entries : Int) ∧
      hdr.deleted_files = (flaggedCount entries : Int) ∧
      liveCount entries + flaggedCount entries ≤ 32 := by
  obtain ⟨hdr, entries, h1, h2, h3, h4, h5, h6⟩ := Reach_StrongInv h
  exact ⟨hdr, entries, h1, h2, h3, h4, h5⟩

theorem C4_witness :
    ∃ hdr entries, read_header c4s2 = some hdr ∧ read_entries c4s2 = some entries ∧
      hdr.file_count = (liveCount entries : Int) ∧
      hdr.deleted_files = (flaggedCount entries : Int) ∧
      liveCount entries + flaggedCount entries ≤ 32 :=
  C4_counter_invariant c4s2
    (Reach.add (Reach.add Reach.init
      (rfl : addfs 0 mkfs c4host [97] = .ok c4s1))
      (rfl : addfs 0 c4s1 c4host [98] = .ok c4s2))

/-- A chained layout stays chained when the low bound decreases. -/
theorem Chained.mono {sz a b : Nat} {l : List FileEntry} (h : Chained sz a l)
    (hba : b ≤ a) : Chained sz b l := by
  cases l with
  | nil => trivial
  | cons e r => exact ⟨le_trans hba h.1, h.2.1, h.2.2⟩

/-- Every entry of a chained layout starts at or after the low bound and
lies inside the container. -/
theorem Chained.start_ge {sz lo : Nat} {l : List FileEntry} (h : Chained sz lo l) :
    ∀ j < l.length, lo ≤ (l.getD j default).start.toNat ∧
      (l.getD j default).start.toNat + (l.getD j default).length.toNat ≤ sz := by
  induction l generalizing lo with
  | nil => intro j hj; simp at hj
  | cons e r ihh =>
    intro j hj
    obtain ⟨h1, h2, h3⟩ := h
    cases j with
    | zero => simpa using ⟨h1, h2⟩
    | succ j =>
      have hrec := ihh h3 j (by simpa using hj)
      refine ⟨?_, by simpa using hrec.2⟩
      have := hrec.1
      simp only [List.getD_cons_succ]
      omega

/-- One compaction step keeps the file big enough to hold the copy. -/
theorem dfrgPost_size (f : VFile) (cur : Nat) (e : FileEntry)
    (h1 : cur ≤ e.start.toNat) (h2 : e.start.toNat + e.length.toNat ≤ f.size) :
    cur + e.length.toNat ≤ (dfrgPost f cur e).size := by
  have hd : (readAt f e.start.toNat e.length.toNat).length = e.length.toNat :=
    length_readAt_of_le h2
  simp only [dfrgPost]
  split
  · refine le_trans ?_ (size_writeAt_ge _ _ _)
    by_cases hdn : readAt f e.start.toNat e.length.toNat = []
    · rw [hdn, writeAt_nil]
      have h0 : e.length.toNat = 0 := by rw [← hd, hdn]; rfl
      omega
    · rw [size_writeAt hdn, hd]
      omega
  · by_cases hdn : readAt f e.start.toNat e.length.toNat = []
    · rw [hdn, writeAt_nil]
      have h0 : e.length.toNat = 0 := by rw [← hd, hdn]; rfl
      omega
    · rw [size_writeAt hdn, hd]
      omega

/-- One compaction step puts the payload bytes at the cursor. -/
theorem dfrgPost_read (f : VFile) (cur : Nat) (e : FileEntry)
    (h1 : cur ≤ e.start.toNat) (h2 : e.start.toNat + e.length.toNat ≤ f.size) :
    readAt (dfrgPost f cur e) cur e.length.toNat =
      readAt f e.start.toNat e.length.toNat := by
  have hd : (readAt f e.start.toNat e.length.toNat).length = e.length.toNat :=
    length_readAt_of_le h2
  have hfsz : cur + e.length.toNat ≤ (writeAt f cur (readAt f e.start.toNat e.length.toNat)).size := by
    by_cases hdn : readAt f e.start.toNat e.length.toNat = []
    · rw [hdn, writeAt_nil]
      have h0 : e.length.toNat = 0 := by rw [← hd, hdn]; rfl
      omega
    · rw [size_writeAt hdn, hd]
      omega
  have hself := readAt_writeAt_self f cur (readAt f e.start.toNat e.length.toNat)
  rw [hd] at hself
  simp only [dfrgPost]
  split
  · rw [readAt_writeAt_left _ (by omega) hfsz]
    exact hself
  · exact hself

/-- One compaction step does not touch bytes at or past the aligned end
of its write region. -/
theorem dfrgPost_above (f : VFile) (cur : Nat) (e : FileEntry) (q n : Nat)
    (hq : cur + (e.length.toNat + 63) / 64 * 64 ≤ q)
    (hlen : e.start.toNat + e.length.toNat ≤ f.size) :
    readAt (dfrgPost f cur e) q n = readAt f q n := by
  have hd : (readAt f e.start.toNat e.length.toNat).length = e.length.toNat :=
    length_readAt_of_le hlen
  simp only [dfrgPost]
  split
  · rw [readAt_writeAt_right _ (by simp only [List.length_replicate]; omega)]
    exact readAt_writeAt_right _ (by omega)
  · exact readAt_writeAt_right _ (by omega)

/-- The compaction loop preserves every copied payload: reading the new
region of the `j`-th kept entry returns the bytes of its old region. -/
theorem dfrgCopy_payload (sz : Nat) (ks : List FileEntry) :
    ∀ (f : VFile) (cur : Nat), Chained sz cur ks → sz ≤ f.size →
    ∀ j < ks.length,
      readAt (dfrgCopy f cur ks).1
        ((((dfrgCopy f cur ks).2.2).getD j default).start.toNat)
        ((ks.getD j default).length.toNat)
      = readAt f ((ks.getD j default).start.toNat) ((ks.getD j default).length.toNat) := by
  induction ks with
  | nil => intro f cur _ _ j hj; simp at hj
  | cons e rest ih =>
    intro f cur hch hsz j hj
    obtain ⟨hc1, hc2, hc3⟩ := hch
    cases j with
    | zero =>
      rw [dfrgCopy_fst, dfrgCopy_snd]
      simp only [List.getD_cons_zero]
      show readAt (dfrgCopy (dfrgPost f cur e) (cur + (e.length.toNat + 63) / 64 * 64) rest).1
        cur e.length.toNat = readAt f e.start.toNat e.length.toNat
      rw [dfrgCopy_below rest _ _ cur e.length.toNat (by omega)
        (dfrgPost_size f cur e hc1 (by omega))]
      exact dfrgPost_read f cur e hc1 (by omega)
    | succ j =>
      rw [dfrgCopy_fst, dfrgCopy_snd]
      simp only [List.getD_cons_succ]
      have hch2 : Chained sz (cur + (e.length.toNat + 63) / 64 * 64) rest :=
        Chained.mono hc3 (by omega)
      have hsz2 : sz ≤ (dfrgPost f cur e).size := le_trans hsz (dfrgPost_size_ge f cur e)
      rw [ih (dfrgPost f cur e) (cur + (e.length.toNat + 63) / 64 * 64) hch2 hsz2 j
        (by simpa using hj)]
      obtain ⟨hge, hbound⟩ := Chained.start_ge hc3 j (by simpa using hj)
      exact dfrgPost_above f cur e _ _ (by omega) (by omega)

/-- New start offsets assigned by the compaction loop never precede the
initial cursor. -/
theorem dfrgCopy_newstart_ge (ks : List FileEntry) :
    ∀ (f : VFile) (cur : Nat) (j : Nat), j < ks.length →
      cur ≤ (((dfrgCopy f cur ks).2.2).getD j default).start.toNat := by
  induction ks with
  | nil => intro f cur j hj; simp at hj
  | cons e rest ih =>
    intro f cur j hj
    rw [dfrgCopy_snd]
    cases j with
    | zero =>
      simp only [List.getD_cons_zero]
      show cur ≤ ((cur : Int)).toNat
      omega
    | succ j =>
      simp only [List.getD_cons_succ]
      have := ih (dfrgPost f cur e) (cur + (e.length.toNat + 63) / 64 * 64) j
        (by simpa using hj)
      omega

/-- The table-rewrite loop does not touch bytes at or past its final
position. -/
theorem writePackLoop_above {ks : List FileEntry} {f : VFile} {pos : Nat}
    {f2 : VFile} {pos2 : Nat} (h : writePackLoop f pos ks = .ok (f2, pos2))
    (q n : Nat) (hq : pos2 ≤ q) :
    readAt f2 q n = readAt f q n := by
  induction ks generalizing f pos with
  | nil => cases h; rfl
  | cons e rest ih =>
    simp only [writePackLoop] at h
    split at h
    next => exact Except.noConfusion h
    next b heb =>
      have hb64 := FileEntry.entry_pack_length heb
      have hposeq := (writePackLoop_spec h).1
      rw [ih h]
      exact readAt_writeAt_right b (by omega)

/-- The fill loop does not touch bytes at or past its end. -/
theorem writeEmpties_above (f : VFile) (pos k q n : Nat) (hq : pos + 64 * k ≤ q) :
    readAt (writeEmpties f pos k) q n = readAt f q n := by
  have hflen : ((emptyEntry.pack).getD ([] : List Nat)).length = 64 := by decide
  induction k generalizing f pos with
  | zero => rfl
  | succ k ih =>
    simp only [writeEmpties]
    rw [ih _ _ (by omega)]
    exact readAt_writeAt_right _ (by rw [hflen]; omega)

/-- The first match survives filtering when it satisfies the filter. -/
theorem firstIdx_filter {α : Type} [Inhabited α] {q pp : α → Bool} {l : List α} {i : Nat}
    (h : firstIdx q l = some i) (hp : pp (l.getD i default) = true) :
    ∃ k, k < (l.filter pp).length ∧ firstIdx q (l.filter pp) = some k ∧
      (l.filter pp).getD k default = l.getD i default := by
  induction l generalizing i with
  | nil => simp [firstIdx] at h
  | cons x rest ih =>
    simp only [firstIdx] at h
    split at h
    next hqx =>
      have h0 := Option.some.inj h
      subst h0
      have hpx : pp x = true := by simpa using hp
      have hfil : (x :: rest).filter pp = x :: rest.filter pp := by
        rw [List.filter_cons, if_pos hpx]
      refine ⟨0, ?_, ?_, ?_⟩
      · rw [hfil]
        simp
      · rw [hfil]
        simp [firstIdx, hqx]
      · rw [hfil]
        simp
    next hqx =>
      cases hr : firstIdx q rest with
      | none => rw [hr] at h; simp at h
      | some i0 =>
        rw [hr] at h
        simp only [Option.map_some', Option.some.injEq] at h
        subst h
        have hp2 : pp (rest.getD i0 default) = true := by simpa using hp
        obtain ⟨k, hk1, hk2, hk3⟩ := ih hr hp2
        by_cases hpx : pp x = true
        · have hfil : (x :: rest).filter pp = x :: rest.filter pp := by
            rw [List.filter_cons, if_pos hpx]
          refine ⟨k + 1, ?_, ?_, ?_⟩
          · rw [hfil]
            simp
            omega
          · rw [hfil]
            simp only [firstIdx]
            rw [if_neg hqx, hk2]
            rfl
          · rw [hfil]
            simpa using hk3
        · have hfil : (x :: rest).filter pp = rest.filter pp := by
            rw [List.filter_cons, if_neg hpx]
          rw [hfil]
          exact ⟨k, hk1, hk2, by simpa using hk3⟩

/-- Lists with pointwise equal predicate values have the same first
match. -/
theorem firstIdx_congr_getD {α : Type} [Inhabited α] {q : α → Bool} {l l2 : List α}
    (hlen : l2.length = l.length)
    (hq : ∀ j < l.length, q (l2.getD j default) = q (l.getD j default)) :
    firstIdx q l2 = firstIdx q l := by
  induction l generalizing l2 with
  | nil =>
    cases l2 with
    | nil => rfl
    | cons y r2 => simp at hlen
  | cons x rest ih =>
    cases l2 with
    | nil => simp at hlen
    | cons y rest2 =>
      have h0 : q y = q x := by simpa using hq 0 (by simp)
      have hrec : firstIdx q rest2 = firstIdx q rest :=
        ih (by simpa using hlen) (fun j hj => by simpa using hq (j + 1) (by simpa using hj))
      simp only [firstIdx, h0, hrec]

/-- A match found in the first part of an append is the match of the
whole. -/
theorem firstIdx_append_left {α : Type} {q : α → Bool} {a b : List α} {k : Nat}
    (h : firstIdx q a = some k) : firstIdx q (a ++ b) = some k := by
  induction a generalizing k with
  | nil => simp [firstIdx] at h
  | cons x rest ih =>
    simp only [firstIdx] at h
    have hgoal : (x :: rest) ++ b = x :: (rest ++ b) := rfl
    rw [hgoal]
    simp only [firstIdx]
    by_cases hqx : q x = true
    · rw [if_pos hqx] at h ⊢
      exact h
    · rw [if_neg hqx] at h ⊢
      cases hr : firstIdx q rest with
      | none => rw [hr] at h; simp at h
      | some k0 =>
        rw [hr] at h
        rw [ih hr]
        exact h


/-- C8: defragment preserves live content.  For a container whose live
entries are laid out in a chained (ordered, in-bounds, 64-byte-aligned)
fashion past the entry table, extracting a live file after a successful
`dfrgfs` yields exactly the bytes it yielded before. -/
theorem C8_defrag_preserves_content (fs fs2 : VFile) (entries : List FileEntry)
    (n : List Nat) (i : Nat)
    (hre : read_entries fs = some entries)
    (hchain : Chained fs.size 2112 (entries.filter (fun e => !e.is_empty && e.flag == 0)))
    (hcmp : compare_filenames entries
      (utf8 n ++ List.replicate (32 - (utf8 n).length) 0) = some i)
    (hlive : (!(entries.getD i default).is_empty && (entries.getD i default).flag == 0) = true)
    (hn : ¬ 31 < n.length)
    (hdf : dfrgfs fs = .ok fs2) :
    getfs fs2 n = getfs fs n ∧
    getfs fs n = .ok (readAt fs (entries.getD i default).start.toNat
      (entries.getD i default).length.toNat) := by
  have henc2 : encode_filename n =
      some (utf8 n ++ List.replicate (32 - (utf8 n).length) 0) := by
    unfold encode_filename
    rw [if_neg hn]
  unfold dfrgfs at hdf
  split at hdf
  next heq => exact OpResult.noConfusion hdf
  next hdrF heqh =>
  split at hdf
  next heq => exact OpResult.noConfusion hdf
  next entriesF heqe =>
  rw [hre] at heqe
  injection heqe with heqe
  subst heqe
  obtain ⟨fs3, pos3, hb, hwpl, hhb, hout⟩ := dfrg_finish_ok hdf
  subst hout
  have hshape := Header.unpack_shape heqh
  obtain ⟨hrh2, hre2, hlive2, hflag2⟩ := dfrg_rebuild fs fs3 pos3 hb entries
    (entries.filter (fun e => !e.is_empty && e.flag == 0)) _ hre rfl hwpl hhb
    hshape.1 hshape.2.1
  obtain ⟨hklen, hkget⟩ := dfrgCopy_entries_getD
    (entries.filter (fun e => !e.is_empty && e.flag == 0)) fs 2112
  have h32 : entries.length = 32 := read_entries_length hre
  obtain ⟨k, hk1, hk2, hk3⟩ := @firstIdx_filter FileEntry _
    (fun e => e.name = utf8 n ++ List.replicate (32 - (utf8 n).length) 0)
    (fun e => !e.is_empty && e.flag == 0) entries i hcmp hlive
  have hq_eq : ∀ j < (entries.filter (fun e => !e.is_empty && e.flag == 0)).length,
      (decide ((((dfrgCopy fs 2112
          (entries.filter (fun e => !e.is_empty && e.flag == 0))).2.2).getD j default).name
        = utf8 n ++ List.replicate (32 - (utf8 n).length) 0) : Bool)
      = decide (((entries.filter (fun e => !e.is_empty && e.flag == 0)).getD j default).name
        = utf8 n ++ List.replicate (32 - (utf8 n).length) 0) := by
    intro j hj
    obtain ⟨st, hst⟩ := hkget j hj
    rw [hst]
  have hfk : firstIdx (fun e => e.name = utf8 n ++ List.replicate (32 - (utf8 n).length) 0)
      ((dfrgCopy fs 2112 (entries.filter (fun e => !e.is_empty && e.flag == 0))).2.2)
      = some k := by
    rw [firstIdx_congr_getD hklen hq_eq]
    exact hk2
  have hcf2 : compare_filenames
      ((dfrgCopy fs 2112 (entries.filter (fun e => !e.is_empty && e.flag == 0))).2.2 ++
        List.replicate (32 - (entries.filter (fun e => !e.is_empty && e.flag == 0)).length)
          emptyEntry)
      (utf8 n ++ List.replicate (32 - (utf8 n).length) 0) = some k := by
    unfold compare_filenames
    exact firstIdx_append_left hfk
  obtain ⟨st, hstk⟩ := hkget k hk1
  have hsz1 : fs.size ≤
      (dfrgCopy fs 2112 (entries.filter (fun e => !e.is_empty && e.flag == 0))).1.size :=
    dfrgCopy_size_ge _ fs 2112
  have hsz2 := writePackLoop_size_ge hwpl
  have hblen := Header.pack_length hhb
  obtain ⟨hwpos, hwframes⟩ := writePackLoop_spec hwpl
  have hKS32 : (entries.filter (fun e => !e.is_empty && e.flag == 0)).length ≤ 32 := by
    have := List.length_filter_le (fun e => !e.is_empty && e.flag == 0) entries
    omega
  have hns : 2112 ≤ ((((dfrgCopy fs 2112
      (entries.filter (fun e => !e.is_empty && e.flag == 0))).2.2).getD k default).start.toNat) :=
    dfrgCopy_newstart_ge _ fs 2112 k hk1
  have hpay := dfrgCopy_payload fs.size
    (entries.filter (fun e => !e.is_empty && e.flag == 0)) fs 2112 hchain (Nat.le_refl _) k hk1
  have hread2 : readAt (writeAt (writeEmpties fs3 pos3
        (32 - (entries.filter (fun e => !e.is_empty && e.flag == 0)).length)) 0 hb)
      ((((dfrgCopy fs 2112
        (entries.filter (fun e => !e.is_empty && e.flag == 0))).2.2).getD k default).start.toNat)
      (((entries.filter (fun e => !e.is_empty && e.flag == 0)).getD k default).length.toNat)
      = readAt fs (entries.getD i default).start.toNat
        (entries.getD i default).length.toNat := by
    rw [readAt_writeAt_right hb (by rw [hblen]; omega)]
    rw [writeEmpties_above fs3 pos3 _ _ _ (by omega)]
    rw [writePackLoop_above hwpl _ _ (by omega)]
    rw [hpay]
    rw [hk3]
  have hbefore : getfs fs n = .ok (readAt fs (entries.getD i default).start.toNat
      (entries.getD i default).length.toNat) := by
    unfold getfs
    split
    next heq => rw [henc2] at heq; exact Option.noConfusion heq
    next fn heq =>
    rw [henc2] at heq
    have heq2 := Option.some.inj heq
    subst heq2
    split
    next heq => rw [hre] at heq; exact Option.noConfusion heq
    next es2 heq =>
    rw [hre] at heq
    have heq3 := Option.some.inj heq
    subst heq3
    split
    next heq => rw [hcmp] at heq; exact Option.noConfusion heq
    next idx heq =>
    rw [hcmp] at heq
    have heq4 := Option.some.inj heq
    subst heq4
    rfl
  have hleneq : ((((dfrgCopy fs 2112
      (entries.filter (fun e => !e.is_empty && e.flag == 0))).2.2).getD k default).length)
      = (((entries.filter (fun e => !e.is_empty && e.flag == 0)).getD k default).length) := by
    rw [hstk]
  have hafter : getfs (writeAt (writeEmpties fs3 pos3
      (32 - (entries.filter (fun e => !e.is_empty && e.flag == 0)).length)) 0 hb) n =
      .ok (readAt fs (entries.getD i default).start.toNat
        (entries.getD i default).length.toNat) := by
    unfold getfs
    split
    next heq => rw [henc2] at heq; exact Option.noConfusion heq
    next fn heq =>
    rw [henc2] at heq
    have heq2 := Option.some.inj heq
    subst heq2
    split
    next heq => rw [hre2] at heq; exact Option.noConfusion heq
    next es2 heq =>
    rw [hre2] at heq
    have heq3 := Option.some.inj heq
    subst heq3
    split
    next heq => rw [hcf2] at heq; exact Option.noConfusion heq
    next idx heq =>
    rw [hcf2] at heq
    have heq4 := Option.some.inj heq
    subst heq4
    show Except.ok (readAt _ ((((dfrgCopy fs 2112
        (entries.filter (fun e => !e.is_empty && e.flag == 0))).2.2 ++
        List.replicate (32 - (entries.filter (fun e => !e.is_empty && e.flag == 0)).length)
          emptyEntry).getD k default).start.toNat)
      ((((dfrgCopy fs 2112
        (entries.filter (fun e => !e.is_empty && e.flag == 0))).2.2 ++
        List.replicate (32 - (entries.filter (fun e => !e.is_empty && e.flag == 0)).length)
          emptyEntry).getD k default).length.toNat)) = _
    rw [getD_append_lt _ _ _ (by omega)]
    rw [hleneq]
    rw [hread2]
  exact ⟨by rw [hafter, hbefore], hbefore⟩

theorem C8_witness :
    getfs c8after [98] = getfs demoFs [98] ∧
    getfs demoFs [98] = .ok (readAt demoFs
      ((((read_entries demoFs).getD []).getD 1 default).start.toNat)
      ((((read_entries demoFs).getD []).getD 1 default).length.toNat)) :=
  C8_defrag_preserves_content demoFs c8after ((read_entries demoFs).getD []) [98] 1
    (by decide) (by decide) (by decide) (by decide) (by decide) rfl

end ZVFS
